import Mathlib

/-!
Verification of the wpilog codec (PotentialStyx/wpilog).

Shallow embedding of `src/writer.rs`, `src/reader.rs`, `src/lib.rs` and
`src/entrytypes.rs`.  Bytes are modelled as `Nat` values (intended `< 256`);
machine-integer casts are modelled with explicit `% 2 ^ w`; byte streams are
`List Nat`; fallible operations return `Option` or `Except`.
-/

set_option maxHeartbeats 1000000

namespace Wpilog

/-- Value of a little-endian byte list (generalised `u64::from_le_bytes`). -/
def leToNat : List Nat → Nat
  | [] => 0
  | b :: rest => b + 256 * leToNat rest

/-- The `k` lowest little-endian bytes of `v` (generalised `to_le_bytes`). -/
def natToLE : Nat → Nat → List Nat
  | 0, _ => []
  | k + 1, v => v % 256 :: natToLE k (v / 256)

@[simp] theorem length_natToLE (k v : Nat) : (natToLE k v).length = k := by
  induction k generalizing v with
  | zero => rfl
  | succ k ih => simp [natToLE, ih]

theorem leToNat_natToLE (k v : Nat) : leToNat (natToLE k v) = v % 256 ^ k := by
  induction k generalizing v with
  | zero => simp [natToLE, leToNat, Nat.mod_one]
  | succ k ih =>
    simp only [natToLE, leToNat, ih]
    rw [pow_succ, mul_comm (256 ^ k) 256, Nat.mod_mul]

theorem leToNat_natToLE_of_lt {k v : Nat} (h : v < 256 ^ k) :
    leToNat (natToLE k v) = v := by
  rw [leToNat_natToLE, Nat.mod_eq_of_lt h]

theorem natToLE_take (k m v : Nat) : (natToLE k v).take m = natToLE (min m k) v := by
  induction k generalizing m v with
  | zero => simp [natToLE]
  | succ k ih =>
    cases m with
    | zero => simp [natToLE]
    | succ m =>
      simp [natToLE, List.take_succ_cons, ih, Nat.succ_min_succ]

theorem natToLE_mod_eq {k j v : Nat} (h : k ≤ j) :
    natToLE k (v % 256 ^ j) = natToLE k v := by
  induction k generalizing j v with
  | zero => rfl
  | succ k ih =>
    cases j with
    | zero => omega
    | succ j =>
      simp only [natToLE]
      congr 1
      · rw [pow_succ, mul_comm, Nat.mod_mul_right_mod]
      · rw [show (256 : Nat) ^ (j + 1) = 256 * 256 ^ j by ring,
          Nat.mod_mul_right_div_self]
        exact ih (by omega)

theorem leToNat_append_zeros (l : List Nat) (m : Nat) :
    leToNat (l ++ List.replicate m 0) = leToNat l := by
  induction l with
  | nil =>
    simp only [List.nil_append]
    induction m with
    | zero => rfl
    | succ m ih => simpa [List.replicate_succ, leToNat] using ih
  | cons b rest ih => simp [leToNat, ih]

/-! ### The varint codec (`src/writer.rs` lines 11-41) -/

def MAX_ONE_BYTE : Nat := 256
def MAX_TWO_BYTES : Nat := 256 ^ 2
def MAX_THREE_BYTES : Nat := 256 ^ 3
def MAX_FOUR_BYTES : Nat := 256 ^ 4
def MAX_FIVE_BYTES : Nat := 256 ^ 5
def MAX_SIX_BYTES : Nat := 256 ^ 6
def MAX_SEVEN_BYTES : Nat := 256 ^ 7

/-- `u16::to_le_bytes` (argument is the cast value, already `< 2 ^ 16`). -/
def u16_to_le_bytes (v : Nat) : List Nat := natToLE 2 v

/-- `u32::to_le_bytes`. -/
def u32_to_le_bytes (v : Nat) : List Nat := natToLE 4 v

/-- `u64::to_le_bytes`. -/
def u64_to_le_bytes (v : Nat) : List Nat := natToLE 8 v

/-- `encode_int` from `src/writer.rs`: the cascade of range tests picking the
shortest little-endian encoding.  Casts (`num as u16`, `num as u32`) are
modelled with explicit reductions modulo `2 ^ 16` / `2 ^ 32` / `2 ^ 64`;
the three-byte (and 5/6/7-byte) cases keep the lowest bytes of the wider
encoding exactly as the source copies `tmp[0..len]`. -/
def encode_int (num : Nat) : List Nat :=
  if num < MAX_ONE_BYTE then [num % 256]
  else if num < MAX_TWO_BYTES then u16_to_le_bytes (num % 2 ^ 16)
  else if num < MAX_THREE_BYTES then (u32_to_le_bytes (num % 2 ^ 32)).take 3
  else if num < MAX_FOUR_BYTES then u32_to_le_bytes (num % 2 ^ 32)
  else if num < MAX_FIVE_BYTES then (u64_to_le_bytes (num % 2 ^ 64)).take 5
  else if num < MAX_SIX_BYTES then (u64_to_le_bytes (num % 2 ^ 64)).take 6
  else if num < MAX_SEVEN_BYTES then (u64_to_le_bytes (num % 2 ^ 64)).take 7
  else u64_to_le_bytes (num % 2 ^ 64)

/-- The length selected by `encode_int`'s cascade. -/
def encLen (num : Nat) : Nat :=
  if num < MAX_ONE_BYTE then 1
  else if num < MAX_TWO_BYTES then 2
  else if num < MAX_THREE_BYTES then 3
  else if num < MAX_FOUR_BYTES then 4
  else if num < MAX_FIVE_BYTES then 5
  else if num < MAX_SIX_BYTES then 6
  else if num < MAX_SEVEN_BYTES then 7
  else 8

theorem encode_int_eq_natToLE {num : Nat} (h : num < 2 ^ 64) :
    encode_int num = natToLE (encLen num) num := by
  unfold encode_int encLen
  unfold MAX_ONE_BYTE MAX_TWO_BYTES MAX_THREE_BYTES MAX_FOUR_BYTES
    MAX_FIVE_BYTES MAX_SIX_BYTES MAX_SEVEN_BYTES
  split
  · rw [show natToLE 1 num = [num % 256] by simp [natToLE]]
  · split
    · rw [u16_to_le_bytes, show (2 : Nat) ^ 16 = 256 ^ 2 by norm_num,
        natToLE_mod_eq (by omega)]
    · split
      · rw [u32_to_le_bytes, natToLE_take,
          show (2 : Nat) ^ 32 = 256 ^ 4 by norm_num,
          natToLE_mod_eq (by omega)]
        norm_num
      · split
        · rw [u32_to_le_bytes, show (2 : Nat) ^ 32 = 256 ^ 4 by norm_num,
            natToLE_mod_eq (by omega)]
        · split
          · rw [u64_to_le_bytes, natToLE_take,
              show (2 : Nat) ^ 64 = 256 ^ 8 by norm_num,
              natToLE_mod_eq (by omega)]
            norm_num
          · split
            · rw [u64_to_le_bytes, natToLE_take,
                show (2 : Nat) ^ 64 = 256 ^ 8 by norm_num,
                natToLE_mod_eq (by omega)]
              norm_num
            · split
              · rw [u64_to_le_bytes, natToLE_take,
                  show (2 : Nat) ^ 64 = 256 ^ 8 by norm_num,
                  natToLE_mod_eq (by omega)]
                norm_num
              · rw [u64_to_le_bytes, show (2 : Nat) ^ 64 = 256 ^ 8 by norm_num,
                  natToLE_mod_eq (by omega)]

theorem encLen_pos (num : Nat) : 1 ≤ encLen num := by
  unfold encLen
  repeat' split
  all_goals omega

theorem encLen_le_eight (num : Nat) : encLen num ≤ 8 := by
  unfold encLen
  repeat' split
  all_goals omega

theorem lt_pow_encLen {num : Nat} (h : num < 2 ^ 64) : num < 256 ^ encLen num := by
  have h8 : num < 256 ^ 8 := by
    calc num < 2 ^ 64 := h
      _ ≤ 256 ^ 8 := by norm_num
  unfold encLen MAX_ONE_BYTE MAX_TWO_BYTES MAX_THREE_BYTES MAX_FOUR_BYTES
    MAX_FIVE_BYTES MAX_SIX_BYTES MAX_SEVEN_BYTES
  repeat' split
  all_goals try simp only [pow_one]
  all_goals assumption

theorem encLen_minimal (num : Nat) :
    encLen num = 1 ∨ 256 ^ (encLen num - 1) ≤ num := by
  unfold encLen MAX_ONE_BYTE MAX_TWO_BYTES MAX_THREE_BYTES MAX_FOUR_BYTES
    MAX_FIVE_BYTES MAX_SIX_BYTES MAX_SEVEN_BYTES
  repeat' split
  · exact Or.inl rfl
  all_goals refine Or.inr ?_
  all_goals norm_num at *
  all_goals omega

theorem length_encode_int {num : Nat} (h : num < 2 ^ 64) :
    (encode_int num).length = encLen num := by
  rw [encode_int_eq_natToLE h, length_natToLE]

theorem encLen_le_four {num : Nat} (h : num < 2 ^ 32) : encLen num ≤ 4 := by
  unfold encLen MAX_ONE_BYTE MAX_TWO_BYTES MAX_THREE_BYTES MAX_FOUR_BYTES
    MAX_FIVE_BYTES MAX_SIX_BYTES MAX_SEVEN_BYTES
  repeat' split
  all_goals try omega
  all_goals exfalso
  all_goals norm_num at *
  all_goals omega

/-! ### Reading byte streams (`src/reader.rs`) -/

/-- `Read::read_exact` on a byte-list source: take exactly `n` bytes or fail. -/
def readExact (n : Nat) (bs : List Nat) : Option (List Nat × List Nat) :=
  if n ≤ bs.length then some (bs.take n, bs.drop n) else none

/-- `WPILOGReader::read_variable_int` (`src/reader.rs` lines 55-62): read
`length` bytes into an 8-byte zero buffer and take `u64::from_le_bytes`. -/
def read_variable_int (length : Nat) (bs : List Nat) : Option (Nat × List Nat) :=
  (readExact length bs).map fun br =>
    (leToNat (br.1 ++ List.replicate (8 - length) 0), br.2)

theorem readExact_eq_some {n : Nat} {bs : List Nat} {v rest : List Nat} :
    readExact n bs = some (v, rest) ↔
      n ≤ bs.length ∧ v = bs.take n ∧ rest = bs.drop n := by
  unfold readExact
  split
  · next h => simp [h, eq_comm]
  · next h => simp [h]

theorem readExact_append_exact {l rest : List Nat} {n : Nat} (h : l.length = n) :
    readExact n (l ++ rest) = some (l, rest) := by
  subst h
  simp [readExact, List.take_left, List.drop_left]

theorem read_variable_int_encode {v : Nat} (rest : List Nat) (hv : v < 2 ^ 64) :
    read_variable_int (encode_int v).length (encode_int v ++ rest) =
      some (v, rest) := by
  simp only [read_variable_int, readExact_append_exact rfl, Option.map_some']
  rw [leToNat_append_zeros, encode_int_eq_natToLE hv,
    leToNat_natToLE_of_lt (lt_pow_encLen hv)]

/-- Claim C2 — varint codec correctness.  For every `u64` value `n`,
`encode_int n` is exactly the `L` lowest little-endian bytes of `n` where `L`
is the least length in `1..=8` with `n < 256 ^ L`, and `read_variable_int`
with that length recovers `n`. -/
theorem varint_codec_correct (n : Nat) (hn : n < 2 ^ 64) :
    encode_int n = natToLE (encLen n) n ∧
    (encode_int n).length = encLen n ∧
    1 ≤ encLen n ∧ encLen n ≤ 8 ∧
    n < 256 ^ encLen n ∧
    (encLen n = 1 ∨ 256 ^ (encLen n - 1) ≤ n) ∧
    read_variable_int (encode_int n).length (encode_int n) = some (n, []) := by
  refine ⟨encode_int_eq_natToLE hn, length_encode_int hn, encLen_pos n,
    encLen_le_eight n, lt_pow_encLen hn, encLen_minimal n, ?_⟩
  simpa using read_variable_int_encode [] hn

/-- Witness for C2, at `n = 65536` (a three-byte value). -/
theorem varint_codec_correct_witness :
    (65536 : Nat) < 2 ^ 64 ∧
      (encode_int 65536 = natToLE (encLen 65536) 65536 ∧
       (encode_int 65536).length = encLen 65536 ∧
       1 ≤ encLen 65536 ∧ encLen 65536 ≤ 8 ∧
       65536 < 256 ^ encLen 65536 ∧
       (encLen 65536 = 1 ∨ 256 ^ (encLen 65536 - 1) ≤ 65536) ∧
       read_variable_int (encode_int 65536).length (encode_int 65536) =
         some (65536, [])) :=
  ⟨by norm_num, varint_codec_correct 65536 (by norm_num)⟩

theorem take_append_len {l₁ : List Nat} (l₂ : List Nat) {n : Nat}
    (h : l₁.length = n) : (l₁ ++ l₂).take n = l₁ := by
  subst h; exact List.take_left l₁ l₂

theorem drop_append_len {l₁ : List Nat} (l₂ : List Nat) {n : Nat}
    (h : l₁.length = n) : (l₁ ++ l₂).drop n = l₂ := by
  subst h; exact List.drop_left l₁ l₂

/-! ### The record model (`src/lib.rs` lines 277-299) -/

/-- `ControlData`: strings (`Box<str>`) are modelled as their UTF-8 bytes. -/
inductive ControlData where
  | start (name ty metadata : List Nat)
  | finish
  | setMetadata (metadata : List Nat)
  deriving DecidableEq, Repr

inductive RecordInfo where
  | control (c : ControlData)
  | data (d : List Nat)
  deriving DecidableEq, Repr

/-- `Record`: `id` is a `u32` (`< 2 ^ 32`), `timestamp` a `u64` (`< 2 ^ 64`);
those machine-integer bounds appear as hypotheses of the theorems below. -/
structure Record where
  id : Nat
  timestamp : Nat
  info : RecordInfo
  deriving DecidableEq, Repr

/-- `PlainRecord` (`src/reader.rs` lines 116-121). -/
structure PlainRecord where
  id : Nat
  timestamp : Nat
  data : List Nat
  deriving DecidableEq, Repr

/-- The error conditions of the reader (`anyhow` messages in the source). -/
inductive DecodeError where
  /-- a `read_exact` ran out of input -/
  | truncated
  /-- "Invalid Header" -/
  | invalidHeader
  /-- "Invalid Version" -/
  | invalidVersion
  /-- "Not enough data ..." during `TryFrom<PlainRecord>` -/
  | notEnoughData
  /-- `str::from_utf8` failed -/
  | invalidUtf8
  /-- "Invalid Control Record Type: t" -/
  | malformedControl (t : Nat)
  deriving DecidableEq, Repr

/-! ### `Record::encode` (`src/writer.rs` lines 143-266) -/

/-- The control-record payload built in the `RecordInfo::Control` arm of
`Record::encode`: a tag byte, the 4-byte little-endian target id, and the
kind-specific fields (strings as 4-byte little-endian length + raw bytes).
`none` models the `expect` panic when a string length does not fit in `u32`. -/
def controlBody (ctrl : ControlData) (id : Nat) : Option (List Nat) :=
  match ctrl with
  | .start name ty metadata =>
    if name.length < 2 ^ 32 ∧ ty.length < 2 ^ 32 ∧ metadata.length < 2 ^ 32 then
      some (0 :: (u32_to_le_bytes id ++ (u32_to_le_bytes name.length ++ (name ++
        (u32_to_le_bytes ty.length ++ (ty ++
          (u32_to_le_bytes metadata.length ++ metadata)))))))
    else none
  | .finish => some (1 :: u32_to_le_bytes id)
  | .setMetadata metadata =>
    if metadata.length < 2 ^ 32 then
      some (2 :: (u32_to_le_bytes id ++
        (u32_to_le_bytes metadata.length ++ metadata)))
    else none

/-- `Record::encode`.  The bitfield ors together disjoint 2/2/3-bit fields at
offsets 0/2/4, rendered arithmetically: `x | (y << 2) | (z << 4)` with
`x < 4`, `y < 4`, `z < 8` equals `x + 4 * y + 16 * z`; the `& 0x3` / `& 0x7`
masks are the `% 4` / `% 8` reductions.  The sequential buffer writes of the
source are concatenation. -/
def encodeRecord (r : Record) : Option (List Nat) :=
  let timestamp_data := encode_int r.timestamp
  match r.info with
  | .control ctrl =>
    (controlBody ctrl r.id).map fun data =>
      let size_data := encode_int data.length
      let bitfield := (size_data.length - 1) % 4 * 4 +
        (timestamp_data.length - 1) % 8 * 16
      bitfield :: 0 :: (size_data ++ (timestamp_data ++ data))
  | .data data =>
    let id_data := encode_int r.id
    let size_data := encode_int data.length
    let bitfield := (id_data.length - 1) % 4 + (size_data.length - 1) % 4 * 4 +
      (timestamp_data.length - 1) % 8 * 16
    some (bitfield :: (id_data ++ (size_data ++ (timestamp_data ++ data))))

/-! ### The frame decoder (`src/reader.rs` lines 74-114) -/

/-- One step of `<WPILOGReader as Iterator>::next` on the remaining stream:
read the bitfield byte, derive the three field lengths (`& 0x3`, `>> 2 & 0x3`,
`>> 4 & 0x7`, each plus one), read id/size/timestamp as variable ints (the
id is cast `as u32`), then read `size` payload bytes.  Returns the parsed
`PlainRecord` and the rest of the stream, or `none` on any read failure. -/
def decodeFrame (bs : List Nat) : Option (PlainRecord × List Nat) :=
  match bs with
  | [] => none
  | b :: rest =>
    (read_variable_int (b % 4 + 1) rest).bind fun er =>
      (read_variable_int (b / 4 % 4 + 1) er.2).bind fun sr =>
        (read_variable_int (b / 16 % 8 + 1) sr.2).bind fun tr =>
          (readExact sr.1 tr.2).map fun dr =>
            (⟨er.1 % 2 ^ 32, tr.1, dr.1⟩, dr.2)

/-! ### UTF-8 validation (`str::from_utf8`) -/

/-- A UTF-8 continuation byte (`0x80..=0xBF`). -/
def utf8Cont (b : Nat) : Bool := 128 ≤ b ∧ b ≤ 191

/-- UTF-8 validity of a byte list, following the table used by Rust's
`str::from_utf8` (core::str::validations). -/
def validUtf8 : List Nat → Bool
  | [] => true
  | b :: rest =>
    if b ≤ 127 then validUtf8 rest
    else if 194 ≤ b ∧ b ≤ 223 then
      match rest with
      | c :: r => utf8Cont c && validUtf8 r
      | [] => false
    else if b = 224 then
      match rest with
      | c :: d :: r => (160 ≤ c && c ≤ 191) && utf8Cont d && validUtf8 r
      | _ => false
    else if (225 ≤ b ∧ b ≤ 236) ∨ b = 238 ∨ b = 239 then
      match rest with
      | c :: d :: r => utf8Cont c && utf8Cont d && validUtf8 r
      | _ => false
    else if b = 237 then
      match rest with
      | c :: d :: r => (128 ≤ c && c ≤ 159) && utf8Cont d && validUtf8 r
      | _ => false
    else if b = 240 then
      match rest with
      | c :: d :: e :: r =>
        (144 ≤ c && c ≤ 191) && utf8Cont d && utf8Cont e && validUtf8 r
      | _ => false
    else if 241 ≤ b ∧ b ≤ 243 then
      match rest with
      | c :: d :: e :: r => utf8Cont c && utf8Cont d && utf8Cont e && validUtf8 r
      | _ => false
    else if b = 244 then
      match rest with
      | c :: d :: e :: r =>
        (128 ≤ c && c ≤ 143) && utf8Cont d && utf8Cont e && validUtf8 r
      | _ => false
    else false
  termination_by l => l.length
  decreasing_by all_goals simp_arith [List.length]

/-! ### `TryFrom<PlainRecord> for Record` (`src/reader.rs` lines 123-276) -/

/-- The length-prefixed-string block repeated (verbatim, up to the error
message) three times in the `Start` arm and once in the `SetMetadata` arm:
check four bytes at `p` are available, read the 4-byte little-endian length,
check that many bytes follow, and return the validated UTF-8 slice together
with the advanced cursor. -/
def readString4 (d : List Nat) (p : Nat) :
    Except DecodeError (List Nat × Nat) :=
  if d.length < p + 4 then .error .notEnoughData
  else if d.length < p + 4 + leToNat ((d.drop p).take 4) then
    .error .notEnoughData
  else if validUtf8 ((d.drop (p + 4)).take (leToNat ((d.drop p).take 4))) then
    .ok ((d.drop (p + 4)).take (leToNat ((d.drop p).take 4)),
      p + 4 + leToNat ((d.drop p).take 4))
  else .error .invalidUtf8

/-- `<Record as TryFrom<PlainRecord>>::try_from`.  Indexed reads
`data[p..p+4]` are rendered as `(data.drop p).take 4` after the source's
bounds checks. -/
def tryFromPlain (record : PlainRecord) : Except DecodeError Record :=
  if record.id = 0 then
    if record.data.length = 0 then .error .notEnoughData
    else if record.data.length < 1 + 4 then .error .notEnoughData
    else if record.data.headD 0 = 0 then
      match readString4 record.data 5 with
      | .error e => .error e
      | .ok (name, p1) =>
        match readString4 record.data p1 with
        | .error e => .error e
        | .ok (ty, p2) =>
          match readString4 record.data p2 with
          | .error e => .error e
          | .ok (metadata, _) =>
            .ok ⟨leToNat ((record.data.drop 1).take 4), record.timestamp,
              .control (.start name ty metadata)⟩
    else if record.data.headD 0 = 1 then
      .ok ⟨leToNat ((record.data.drop 1).take 4), record.timestamp,
        .control .finish⟩
    else if record.data.headD 0 = 2 then
      match readString4 record.data 5 with
      | .error e => .error e
      | .ok (metadata, _) =>
        .ok ⟨leToNat ((record.data.drop 1).take 4), record.timestamp,
          .control (.setMetadata metadata)⟩
    else .error (.malformedControl (record.data.headD 0))
  else .ok ⟨record.id, record.timestamp, .data record.data⟩

/-! ### Reader construction (`src/reader.rs` lines 20-52) -/

/-- `b"WPILOG"`. -/
def HEADER_STRING : List Nat := [87, 80, 73, 76, 79, 71]

/-- `0x0100`. -/
def HEADER_VERSION : Nat := 256

/-- `WPILOGReader::new_raw` on a byte-list source.  Returns the retained
`extra_header` and the remaining stream. -/
def newRaw (bs : List Nat) : Except DecodeError (List Nat × List Nat) :=
  match readExact 6 bs with
  | none => .error .truncated
  | some (header, r1) =>
    if header ≠ HEADER_STRING then .error .invalidHeader
    else
      match readExact 2 r1 with
      | none => .error .truncated
      | some (vb, r2) =>
        if leToNat vb ≠ HEADER_VERSION then .error .invalidVersion
        else
          match readExact 4 r2 with
          | none => .error .truncated
          | some (lb, r3) =>
            match readExact (leToNat lb) r3 with
            | none => .error .truncated
            | some (extra_header, r4) => .ok (extra_header, r4)

/-- Claim C5 — header validation.  Wrong magic fails with `invalidHeader`;
right magic but wrong version fails with `invalidVersion` (the spec's
`UnsupportedVersion`); when magic, version, length field and the `L`
announced bytes are all present, construction succeeds and `extra_header`
is exactly those `L` bytes.  `newRaw` returning `Except` means a failure
never produces a partial reader. -/
theorem header_validation (bs : List Nat) :
    (6 ≤ bs.length → bs.take 6 ≠ HEADER_STRING →
      newRaw bs = .error .invalidHeader) ∧
    (bs.take 6 = HEADER_STRING → 8 ≤ bs.length →
      leToNat ((bs.drop 6).take 2) ≠ HEADER_VERSION →
      newRaw bs = .error .invalidVersion) ∧
    (bs.take 6 = HEADER_STRING → 8 ≤ bs.length →
      leToNat ((bs.drop 6).take 2) = HEADER_VERSION → 12 ≤ bs.length →
      12 + leToNat ((bs.drop 8).take 4) ≤ bs.length →
      newRaw bs = .ok ((bs.drop 12).take (leToNat ((bs.drop 8).take 4)),
        bs.drop (12 + leToNat ((bs.drop 8).take 4)))) := by
  refine ⟨?_, ?_, ?_⟩
  · intro h6 hm
    have h1 : readExact 6 bs = some (bs.take 6, bs.drop 6) := by
      rw [readExact, if_pos h6]
    simp only [newRaw, h1, ne_eq, hm, not_false_eq_true, if_true]
  · intro hm h8 hv
    have h1 : readExact 6 bs = some (bs.take 6, bs.drop 6) := by
      rw [readExact, if_pos (by omega)]
    have h2 : readExact 2 (bs.drop 6) = some ((bs.drop 6).take 2, bs.drop 8) := by
      rw [readExact, if_pos (by simp only [List.length_drop]; omega)]
      rw [List.drop_drop]
    simp only [newRaw, h1, h2, hm, ne_eq, not_true_eq_false, if_false]
    rw [if_pos hv]
  · intro hm h8 hv h12 hL
    have h1 : readExact 6 bs = some (bs.take 6, bs.drop 6) := by
      rw [readExact, if_pos (by omega)]
    have h2 : readExact 2 (bs.drop 6) = some ((bs.drop 6).take 2, bs.drop 8) := by
      rw [readExact, if_pos (by simp only [List.length_drop]; omega)]
      rw [List.drop_drop]
    have h3 : readExact 4 (bs.drop 8) = some ((bs.drop 8).take 4, bs.drop 12) := by
      rw [readExact, if_pos (by simp only [List.length_drop]; omega)]
      rw [List.drop_drop]
    have h4 : readExact (leToNat ((bs.drop 8).take 4)) (bs.drop 12) =
        some ((bs.drop 12).take (leToNat ((bs.drop 8).take 4)),
          bs.drop (12 + leToNat ((bs.drop 8).take 4))) := by
      rw [readExact, if_pos (by simp only [List.length_drop]; omega)]
      rw [List.drop_drop, Nat.add_comm]
    simp only [newRaw, h1, h2, h3, h4, hm, ne_eq, not_true_eq_false, if_false]
    rw [if_neg (by simp [hv])]

/-- Witness for C5: the minimal valid header (magic, version `0x0100`,
extra-header length 0) succeeds with an empty `extra_header`. -/
theorem header_validation_witness :
    newRaw [87, 80, 73, 76, 79, 71, 0, 1, 0, 0, 0, 0] = .ok ([], []) := by
  have h := (header_validation [87, 80, 73, 76, 79, 71, 0, 1, 0, 0, 0, 0]).2.2
    (by decide) (by decide) (by decide) (by decide) (by decide)
  simpa using h

/-! ### Frames produced by `Record::encode` and read back by the reader -/

/-- The value carried by a frame's id field: `0` for control records,
the record's own id for data records. -/
def frameIdValue (r : Record) : Nat :=
  match r.info with
  | .control _ => 0
  | .data _ => r.id

/-- The payload embedded in the frame: the control body for control records,
the raw data for data records. -/
def framePayload (r : Record) : Option (List Nat) :=
  match r.info with
  | .control c => controlBody c r.id
  | .data d => some d

theorem readExact_all (l : List Nat) : readExact l.length l = some (l, []) := by
  rw [readExact, if_pos (le_refl _)]
  simp

theorem read_variable_int_zero_byte (rest : List Nat) :
    read_variable_int 1 (0 :: rest) = some (0, rest) := by
  have h : readExact 1 (0 :: rest) = some ([0], rest) := by
    rw [readExact, if_pos (by simp)]
    simp
  simp [read_variable_int, h, leToNat_append_zeros, leToNat]

/-- Decoding a frame produced by `Record::encode` recovers the frame-level
fields exactly, consuming the whole frame — provided the embedded payload is
shorter than `2 ^ 32` bytes (so that the 2-bit size-length field is not
truncated by the `& 0x3` mask). -/
theorem decode_encode {r : Record} {f body : List Nat}
    (hts : r.timestamp < 2 ^ 64) (hid : r.id < 2 ^ 32)
    (hp : framePayload r = some body) (hlen : body.length < 2 ^ 32)
    (henc : encodeRecord r = some f) :
    decodeFrame f = some (⟨frameIdValue r, r.timestamp, body⟩, []) := by
  have hsz64 : body.length < 2 ^ 64 := lt_trans hlen (by norm_num)
  have hB : (encode_int body.length).length = encLen body.length :=
    length_encode_int hsz64
  have hB4 : encLen body.length ≤ 4 := encLen_le_four hlen
  have hB1 : 1 ≤ encLen body.length := encLen_pos _
  have hC : (encode_int r.timestamp).length = encLen r.timestamp :=
    length_encode_int hts
  have hC8 : encLen r.timestamp ≤ 8 := encLen_le_eight _
  have hC1 : 1 ≤ encLen r.timestamp := encLen_pos _
  cases hinfo : r.info with
  | control c =>
    have hbody : controlBody c r.id = some body := by
      simpa [framePayload, hinfo] using hp
    have hf : f = (((encode_int body.length).length - 1) % 4 * 4 +
        ((encode_int r.timestamp).length - 1) % 8 * 16) ::
          0 :: (encode_int body.length ++ (encode_int r.timestamp ++ body)) := by
      have h := henc
      simp only [encodeRecord, hinfo, hbody, Option.map_some'] at h
      exact (Option.some.inj h).symm
    subst hf
    have e1 : (((encode_int body.length).length - 1) % 4 * 4 +
        ((encode_int r.timestamp).length - 1) % 8 * 16) % 4 + 1 = 1 := by
      rw [hB, hC]; omega
    have e2 : (((encode_int body.length).length - 1) % 4 * 4 +
        ((encode_int r.timestamp).length - 1) % 8 * 16) / 4 % 4 + 1 =
        (encode_int body.length).length := by
      rw [hB, hC]; omega
    have e3 : (((encode_int body.length).length - 1) % 4 * 4 +
        ((encode_int r.timestamp).length - 1) % 8 * 16) / 16 % 8 + 1 =
        (encode_int r.timestamp).length := by
      rw [hB, hC]; omega
    simp only [decodeFrame, e1, read_variable_int_zero_byte, e2,
      read_variable_int_encode _ hsz64, e3, read_variable_int_encode _ hts,
      readExact_all, frameIdValue, hinfo, Nat.zero_mod, Option.some_bind,
      Option.map_some']
  | data d =>
    have hbody : d = body := by
      have h := hp
      simp only [framePayload, hinfo] at h
      exact Option.some.inj h
    subst hbody
    have hid64 : r.id < 2 ^ 64 := lt_trans hid (by norm_num)
    have hA : (encode_int r.id).length = encLen r.id := length_encode_int hid64
    have hA4 : encLen r.id ≤ 4 := encLen_le_four hid
    have hA1 : 1 ≤ encLen r.id := encLen_pos _
    have hf : f = (((encode_int r.id).length - 1) % 4 +
        ((encode_int d.length).length - 1) % 4 * 4 +
        ((encode_int r.timestamp).length - 1) % 8 * 16) ::
          (encode_int r.id ++ (encode_int d.length ++
            (encode_int r.timestamp ++ d))) := by
      have h := henc
      simp only [encodeRecord, hinfo] at h
      exact (Option.some.inj h).symm
    subst hf
    have e1 : (((encode_int r.id).length - 1) % 4 +
        ((encode_int d.length).length - 1) % 4 * 4 +
        ((encode_int r.timestamp).length - 1) % 8 * 16) % 4 + 1 =
        (encode_int r.id).length := by
      rw [hA, hB, hC]; omega
    have e2 : (((encode_int r.id).length - 1) % 4 +
        ((encode_int d.length).length - 1) % 4 * 4 +
        ((encode_int r.timestamp).length - 1) % 8 * 16) / 4 % 4 + 1 =
        (encode_int d.length).length := by
      rw [hA, hB, hC]; omega
    have e3 : (((encode_int r.id).length - 1) % 4 +
        ((encode_int d.length).length - 1) % 4 * 4 +
        ((encode_int r.timestamp).length - 1) % 8 * 16) / 16 % 8 + 1 =
        (encode_int r.timestamp).length := by
      rw [hA, hB, hC]; omega
    simp only [decodeFrame, e1, read_variable_int_encode _ hid64, e2,
      read_variable_int_encode _ hsz64, e3, read_variable_int_encode _ hts,
      readExact_all, frameIdValue, hinfo, Nat.mod_eq_of_lt hid,
      Option.some_bind, Option.map_some']

/-- Claim C10 — implicit size-field safety limit.  For a data record whose
payload is shorter than `2 ^ 32` bytes, the `& 0x3` masks on the id-length
and size-length lose nothing: the control byte's bits 0-1 are the id field
length minus one, bits 2-3 are the size field length minus one, and the
reader recovers exactly the original id and payload. -/
theorem size_mask_safe (id ts : Nat) (d f : List Nat)
    (hid0 : id ≠ 0) (hid : id < 2 ^ 32) (hts : ts < 2 ^ 64)
    (hlen : d.length < 2 ^ 32)
    (henc : encodeRecord ⟨id, ts, .data d⟩ = some f) :
    f.headD 0 % 4 = (encode_int id).length - 1 ∧
    f.headD 0 / 4 % 4 = (encode_int d.length).length - 1 ∧
    decodeFrame f = some (⟨id, ts, d⟩, []) := by
  have hid64 : id < 2 ^ 64 := lt_trans hid (by norm_num)
  have hsz64 : d.length < 2 ^ 64 := lt_trans hlen (by norm_num)
  have hts' : (⟨id, ts, .data d⟩ : Record).timestamp < 2 ^ 64 := hts
  have hdec := decode_encode (r := ⟨id, ts, .data d⟩) hts hid rfl hlen henc
  simp only [frameIdValue] at hdec
  have hf : f = (((encode_int id).length - 1) % 4 +
      ((encode_int d.length).length - 1) % 4 * 4 +
      ((encode_int ts).length - 1) % 8 * 16) ::
        (encode_int id ++ (encode_int d.length ++ (encode_int ts ++ d))) := by
    have h := henc
    simp only [encodeRecord] at h
    exact (Option.some.inj h).symm
  have hA : (encode_int id).length = encLen id := length_encode_int hid64
  have hA4 : encLen id ≤ 4 := encLen_le_four hid
  have hA1 : 1 ≤ encLen id := encLen_pos _
  have hB : (encode_int d.length).length = encLen d.length :=
    length_encode_int hsz64
  have hB4 : encLen d.length ≤ 4 := encLen_le_four hlen
  have hB1 : 1 ≤ encLen d.length := encLen_pos _
  have hC : (encode_int ts).length = encLen ts := length_encode_int hts
  have hC8 : encLen ts ≤ 8 := encLen_le_eight _
  have hC1 : 1 ≤ encLen ts := encLen_pos _
  subst hf
  refine ⟨?_, ?_, hdec⟩
  · simp only [List.headD_cons]
    rw [hA, hB, hC]
    omega
  · simp only [List.headD_cons]
    rw [hA, hB, hC]
    omega

/-- Witness for C10, at id 1, timestamp 0, payload `[42]`. -/
theorem size_mask_safe_witness :
    [0, 1, 1, 0, 42].headD 0 % 4 = (encode_int 1).length - 1 ∧
    [0, 1, 1, 0, 42].headD 0 / 4 % 4 = (encode_int 1).length - 1 ∧
    decodeFrame [0, 1, 1, 0, 42] = some (⟨1, 0, [42]⟩, []) :=
  size_mask_safe 1 0 [42] [0, 1, 1, 0, 42] (by decide) (by decide)
    (by norm_num) (by decide) (by decide)

/-- A variable-length field holding value `v` is minimal: 1-8 bytes,
`v < 256 ^ len`, and no shorter length would hold `v`. -/
def MinimalVarint (v : Nat) : Prop :=
  1 ≤ (encode_int v).length ∧ (encode_int v).length ≤ 8 ∧
  v < 256 ^ (encode_int v).length ∧
  ((encode_int v).length = 1 ∨ 256 ^ ((encode_int v).length - 1) ≤ v)

theorem minimalVarint_of_lt {v : Nat} (hv : v < 2 ^ 64) : MinimalVarint v := by
  refine ⟨?_, ?_, ?_, ?_⟩ <;> rw [length_encode_int hv]
  · exact encLen_pos v
  · exact encLen_le_eight v
  · exact lt_pow_encLen hv
  · exact encLen_minimal v

/-- Claim C3 (amended) — frame field-length invariant.  Amendment: the claim
holds for frames whose embedded payload is shorter than `2 ^ 32` bytes; for
longer payloads the size field takes 5-8 bytes and the 2-bit size-length
field of the control byte cannot record `size_len - 1`
(see `frame_layout_counterexample`).  Within that bound: the frame is the
control byte followed by the three minimal variable-length fields (id value
is 0 for control frames, the record id for data frames) and the payload, and
the control byte is `(id_len-1) + 4*(size_len-1) + 16*(ts_len-1)`,
recording the three field lengths in bits 0-1, 2-3 and 4-6. -/
theorem frame_layout_amended (r : Record) (f body : List Nat)
    (hts : r.timestamp < 2 ^ 64) (hid : r.id < 2 ^ 32)
    (hp : framePayload r = some body) (hlen : body.length < 2 ^ 32)
    (henc : encodeRecord r = some f) :
    f = ((((encode_int (frameIdValue r)).length - 1) +
        ((encode_int body.length).length - 1) * 4 +
        ((encode_int r.timestamp).length - 1) * 16) ::
        (encode_int (frameIdValue r) ++ (encode_int body.length ++
          (encode_int r.timestamp ++ body)))) ∧
    MinimalVarint (frameIdValue r) ∧ MinimalVarint body.length ∧
    MinimalVarint r.timestamp := by
  have hsz64 : body.length < 2 ^ 64 := lt_trans hlen (by norm_num)
  have hB : (encode_int body.length).length = encLen body.length :=
    length_encode_int hsz64
  have hB4 : encLen body.length ≤ 4 := encLen_le_four hlen
  have hB1 : 1 ≤ encLen body.length := encLen_pos _
  have hC : (encode_int r.timestamp).length = encLen r.timestamp :=
    length_encode_int hts
  have hC8 : encLen r.timestamp ≤ 8 := encLen_le_eight _
  have hC1 : 1 ≤ encLen r.timestamp := encLen_pos _
  cases hinfo : r.info with
  | control c =>
    have hbody : controlBody c r.id = some body := by
      simpa [framePayload, hinfo] using hp
    have hf : f = (((encode_int body.length).length - 1) % 4 * 4 +
        ((encode_int r.timestamp).length - 1) % 8 * 16) ::
          0 :: (encode_int body.length ++ (encode_int r.timestamp ++ body)) := by
      have h := henc
      simp only [encodeRecord, hinfo, hbody, Option.map_some'] at h
      exact (Option.some.inj h).symm
    have hidv : frameIdValue r = 0 := by simp [frameIdValue, hinfo]
    have he0 : encode_int 0 = [0] := by decide
    refine ⟨?_, ?_, minimalVarint_of_lt hsz64, minimalVarint_of_lt hts⟩
    · rw [hf, hidv, he0]
      simp only [List.length_cons, List.length_nil, List.cons_append,
        List.nil_append]
      congr 1
      rw [hB, hC]
      omega
    · rw [hidv]
      exact minimalVarint_of_lt (by norm_num)
  | data d =>
    have hbody : d = body := by
      have h := hp
      simp only [framePayload, hinfo] at h
      exact Option.some.inj h
    subst hbody
    have hid64 : r.id < 2 ^ 64 := lt_trans hid (by norm_num)
    have hA : (encode_int r.id).length = encLen r.id := length_encode_int hid64
    have hA4 : encLen r.id ≤ 4 := encLen_le_four hid
    have hA1 : 1 ≤ encLen r.id := encLen_pos _
    have hf : f = (((encode_int r.id).length - 1) % 4 +
        ((encode_int d.length).length - 1) % 4 * 4 +
        ((encode_int r.timestamp).length - 1) % 8 * 16) ::
          (encode_int r.id ++ (encode_int d.length ++
            (encode_int r.timestamp ++ d))) := by
      have h := henc
      simp only [encodeRecord, hinfo] at h
      exact (Option.some.inj h).symm
    have hidv : frameIdValue r = r.id := by simp [frameIdValue, hinfo]
    refine ⟨?_, ?_, minimalVarint_of_lt hsz64, minimalVarint_of_lt hts⟩
    · rw [hf, hidv]
      congr 1
      rw [hA, hB, hC]
      omega
    · rw [hidv]
      exact minimalVarint_of_lt hid64

/-- Witness for C3 (amended), at a data record with id 1, timestamp 2,
payload `[9]`. -/
theorem frame_layout_amended_witness :
    [0, 1, 1, 2, 9] = ((((encode_int (frameIdValue ⟨1, 2, .data [9]⟩)).length - 1) +
        ((encode_int ([9] : List Nat).length).length - 1) * 4 +
        ((encode_int (2 : Nat)).length - 1) * 16) ::
        (encode_int (frameIdValue ⟨1, 2, .data [9]⟩) ++
          (encode_int ([9] : List Nat).length ++ (encode_int 2 ++ [9])))) ∧
      MinimalVarint (frameIdValue ⟨1, 2, .data [9]⟩) ∧
      MinimalVarint ([9] : List Nat).length ∧ MinimalVarint 2 :=
  frame_layout_amended ⟨1, 2, .data [9]⟩ [0, 1, 1, 2, 9] [9]
    (by norm_num) (by decide) (by decide) (by decide) (by decide)

/-- The record of the counterexample to C3 as stated: a data record with a
`2 ^ 32`-byte payload. -/
def c3r : Record := ⟨1, 0, .data (List.replicate (2 ^ 32) 0)⟩

/-- The control byte and frame produced for any data record, by direct
reduction of `Record::encode`. -/
theorem encode_data_frame (id ts : Nat) (d : List Nat) :
    encodeRecord ⟨id, ts, .data d⟩ = some (
      (((encode_int id).length - 1) % 4 +
       ((encode_int d.length).length - 1) % 4 * 4 +
       ((encode_int ts).length - 1) % 8 * 16) ::
      (encode_int id ++ (encode_int d.length ++ (encode_int ts ++ d)))) := rfl

/-- Counterexample to C3 as stated: for a payload of `2 ^ 32` bytes the
encoded size field is 5 bytes long, but bits 2-3 of the emitted control byte
are `(5 - 1) & 0x3 = 0`, not `size_len - 1 = 4`. -/
theorem frame_layout_counterexample :
    (encodeRecord c3r).map (fun f => f.headD 0 / 4 % 4) = some 0 ∧
    (encode_int ((List.replicate (2 ^ 32) (0 : Nat)).length)).length - 1 = 4 ∧
    (0 : Nat) ≠ 4 := by
  have h := encode_data_frame 1 0 (List.replicate (2 ^ 32) 0)
  have l1 : (encode_int 1).length = 1 := by decide
  have l0 : (encode_int 0).length = 1 := by decide
  have l5 : (encode_int (2 ^ 32 : Nat)).length = 5 := by
    rw [length_encode_int (by norm_num)]
    unfold encLen MAX_ONE_BYTE MAX_TWO_BYTES MAX_THREE_BYTES MAX_FOUR_BYTES
      MAX_FIVE_BYTES MAX_SIX_BYTES MAX_SEVEN_BYTES
    norm_num
  rw [List.length_replicate, l1, l0, l5] at h
  norm_num at h
  have hc : c3r = (⟨1, 0, .data (List.replicate 4294967296 0)⟩ : Record) := by
    norm_num [c3r]
  refine ⟨?_, ?_, by decide⟩
  · rw [hc, h, Option.map_some', List.headD_cons]
  · rw [List.length_replicate, l5]

/-- Claim C4 — control-frame layout.  For every control record, the emitted
id field is the single byte `0x00` with the control byte's id-length bits
left at 0, and the payload is one tag byte (0 for Start, 1 for Finish, 2 for
SetMetadata), the 4-byte little-endian target entry id, then the
kind-specific fields, every string field encoded as a 4-byte little-endian
byte length followed by its raw UTF-8 bytes with no terminator. -/
theorem control_frame_layout (r : Record) (c : ControlData) (f : List Nat)
    (hc : r.info = .control c) (henc : encodeRecord r = some f) :
    ∃ body : List Nat,
      f = (((encode_int body.length).length - 1) % 4 * 4 +
          ((encode_int r.timestamp).length - 1) % 8 * 16) ::
          0 :: (encode_int body.length ++ (encode_int r.timestamp ++ body)) ∧
      f.headD 0 % 4 = 0 ∧
      body = (match c with
        | .start name ty metadata =>
            0 :: (u32_to_le_bytes r.id ++ (u32_to_le_bytes name.length ++ (name ++
              (u32_to_le_bytes ty.length ++ (ty ++
                (u32_to_le_bytes metadata.length ++ metadata))))))
        | .finish => 1 :: u32_to_le_bytes r.id
        | .setMetadata metadata =>
            2 :: (u32_to_le_bytes r.id ++
              (u32_to_le_bytes metadata.length ++ metadata))) := by
  simp only [encodeRecord, hc] at henc
  cases hcb : controlBody c r.id with
  | none => rw [hcb] at henc; simp at henc
  | some body =>
    rw [hcb, Option.map_some'] at henc
    have hf := (Option.some.inj henc).symm
    refine ⟨body, hf, ?_, ?_⟩
    · rw [hf]
      simp only [List.headD_cons]
      omega
    · cases c with
      | start name ty metadata =>
        have h := hcb
        simp only [controlBody] at h
        by_cases hif : name.length < 2 ^ 32 ∧ ty.length < 2 ^ 32 ∧
            metadata.length < 2 ^ 32
        · rw [if_pos hif] at h
          exact (Option.some.inj h).symm
        · rw [if_neg hif] at h
          exact absurd h (by simp)
      | finish =>
        have h := hcb
        simp only [controlBody] at h
        exact (Option.some.inj h).symm
      | setMetadata metadata =>
        have h := hcb
        simp only [controlBody] at h
        by_cases hif : metadata.length < 2 ^ 32
        · rw [if_pos hif] at h
          exact (Option.some.inj h).symm
        · rw [if_neg hif] at h
          exact absurd h (by simp)

/-- Witness for C4: a SetMetadata control record with target id 7,
timestamp 3, metadata bytes `[104, 105]`. -/
theorem control_frame_layout_witness :
    ∃ body : List Nat,
      [0, 0, 11, 3, 2, 7, 0, 0, 0, 2, 0, 0, 0, 104, 105] =
        (((encode_int body.length).length - 1) % 4 * 4 +
          ((encode_int (3 : Nat)).length - 1) % 8 * 16) ::
          0 :: (encode_int body.length ++ (encode_int 3 ++ body)) ∧
      ([0, 0, 11, 3, 2, 7, 0, 0, 0, 2, 0, 0, 0, 104, 105] : List Nat).headD 0 % 4
        = 0 ∧
      body = 2 :: (u32_to_le_bytes 7 ++
        (u32_to_le_bytes ([104, 105] : List Nat).length ++ [104, 105])) :=
  control_frame_layout ⟨7, 3, .control (.setMetadata [104, 105])⟩
    (.setMetadata [104, 105]) [0, 0, 11, 3, 2, 7, 0, 0, 0, 2, 0, 0, 0, 104, 105]
    rfl (by decide)

/-! ### Round-tripping frames through the reader (claim C1) -/

@[simp] theorem length_u32 (v : Nat) : (u32_to_le_bytes v).length = 4 := by
  simp [u32_to_le_bytes]

theorem leToNat_u32 {v : Nat} (h : v < 2 ^ 32) : leToNat (u32_to_le_bytes v) = v := by
  rw [u32_to_le_bytes, leToNat_natToLE_of_lt]
  rw [show (256 : Nat) ^ 4 = 2 ^ 32 by norm_num]
  exact h

/-- Evaluating one length-prefixed-string block at its position in a
control payload. -/
theorem readString4_at {d s : List Nat} {p : Nat} (pre rest : List Nat)
    (hpre : pre.length = p)
    (hd : d = pre ++ (u32_to_le_bytes s.length ++ (s ++ rest)))
    (hs : s.length < 2 ^ 32) (hu : validUtf8 s = true) :
    readString4 d p = .ok (s, p + 4 + s.length) := by
  have hdl : d.length = p + 4 + s.length + rest.length := by
    subst hd
    simp [← hpre]
    omega
  have hdrop : d.drop p = u32_to_le_bytes s.length ++ (s ++ rest) := by
    subst hd
    exact drop_append_len _ hpre
  have hdrop2 : d.drop (p + 4) = s ++ rest := by
    subst hd
    rw [show pre ++ (u32_to_le_bytes s.length ++ (s ++ rest)) =
        (pre ++ u32_to_le_bytes s.length) ++ (s ++ rest) by
      simp [List.append_assoc]]
    exact drop_append_len _ (by simp [hpre])
  have hval : leToNat ((d.drop p).take 4) = s.length := by
    rw [hdrop, take_append_len _ (length_u32 s.length), leToNat_u32 hs]
  rw [readString4, if_neg (by omega), hval, if_neg (by omega), hdrop2,
    take_append_len _ rfl, if_pos hu]

/-- The `Box<str>` invariant of the Rust strings inside a `ControlData`:
every string field is valid UTF-8. -/
def ctrlUtf8 : ControlData → Prop
  | .start n t m => validUtf8 n = true ∧ validUtf8 t = true ∧ validUtf8 m = true
  | .finish => True
  | .setMetadata m => validUtf8 m = true

/-- The control payload fits in the 4-byte size field: its total encoded
length (tag + target id + fields) is below `2 ^ 32`. -/
def ctrlPayloadSmall : ControlData → Prop
  | .start n t m => 17 + (n.length + t.length + m.length) < 2 ^ 32
  | .finish => True
  | .setMetadata m => 9 + m.length < 2 ^ 32

/-- Interpreting a data frame: the id and payload pass through unchanged. -/
theorem tryFromPlain_data {p : PlainRecord} (h : p.id ≠ 0) :
    tryFromPlain p = .ok ⟨p.id, p.timestamp, .data p.data⟩ := by
  rw [tryFromPlain, if_neg h]

/-- Interpreting the control payload built by `Record::encode` recovers the
original `ControlData` and target id. -/
theorem take_len_self (l : List Nat) : l.take l.length = l := by
  have h := @take_append_len l ([] : List Nat) l.length rfl
  simpa using h

theorem tryFromPlain_controlBody {c : ControlData} {id ts : Nat}
    {body : List Nat} (hid : id < 2 ^ 32) (hb : controlBody c id = some body)
    (hu : ctrlUtf8 c) :
    tryFromPlain ⟨0, ts, body⟩ = .ok ⟨id, ts, .control c⟩ := by
  cases c with
  | start n t m =>
    obtain ⟨hn, ht, hm⟩ := hu
    simp only [controlBody] at hb
    by_cases hif : n.length < 2 ^ 32 ∧ t.length < 2 ^ 32 ∧ m.length < 2 ^ 32
    case neg => rw [if_neg hif] at hb; exact absurd hb (by simp)
    rw [if_pos hif] at hb
    have hbody : body = 0 :: (u32_to_le_bytes id ++ (u32_to_le_bytes n.length ++
        (n ++ (u32_to_le_bytes t.length ++ (t ++ (u32_to_le_bytes m.length ++
          m)))))) := (Option.some.inj hb).symm
    have hL : body.length = 17 + (n.length + (t.length + m.length)) := by
      rw [hbody]
      simp
      try omega
    have hhead : body.headD 0 = 0 := by rw [hbody]; rfl
    have hs1 : readString4 body 5 = .ok (n, 9 + n.length) := by
      rw [readString4_at (0 :: u32_to_le_bytes id)
        (u32_to_le_bytes t.length ++ (t ++ (u32_to_le_bytes m.length ++ m)))
        (by simp) (by rw [hbody]; simp) hif.1 hn]
      try norm_num
    have hs2 : readString4 body (9 + n.length) =
        .ok (t, 9 + n.length + 4 + t.length) :=
      readString4_at
        (0 :: (u32_to_le_bytes id ++ (u32_to_le_bytes n.length ++ n)))
        (u32_to_le_bytes m.length ++ m)
        (by simp; try omega) (by rw [hbody]; simp) hif.2.1 ht
    have hs3 : readString4 body (9 + n.length + 4 + t.length) =
        .ok (m, 9 + n.length + 4 + t.length + 4 + m.length) :=
      readString4_at
        (0 :: (u32_to_le_bytes id ++ (u32_to_le_bytes n.length ++
          (n ++ (u32_to_le_bytes t.length ++ t)))))
        [] (by simp; try omega) (by rw [hbody]; simp) hif.2.2 hm
    have hid4 : (body.drop 1).take 4 = u32_to_le_bytes id := by
      rw [hbody]
      simp only [List.drop_succ_cons, List.drop_zero]
      exact take_append_len _ (length_u32 id)
    have c1 : ¬(body.length = 0) := by rw [hL]; omega
    have c2 : ¬(body.length < 1 + 4) := by rw [hL]; omega
    simp only [tryFromPlain, c1, c2, hhead, hs1, hs2, hs3, hid4,
      leToNat_u32 hid, eq_self_iff_true, if_true, ite_true, ite_false, if_false]
  | finish =>
    simp only [controlBody] at hb
    have hbody : body = 1 :: u32_to_le_bytes id := (Option.some.inj hb).symm
    have hL : body.length = 5 := by rw [hbody]; simp
    have hhead : body.headD 0 = 1 := by rw [hbody]; rfl
    have hid4 : (body.drop 1).take 4 = u32_to_le_bytes id := by
      rw [hbody]
      simp only [List.drop_succ_cons, List.drop_zero]
      rw [← length_u32 id]
      exact take_len_self _
    have c1 : ¬(body.length = 0) := by rw [hL]; omega
    have c2 : ¬(body.length < 1 + 4) := by rw [hL]; omega
    simp only [tryFromPlain, c1, c2, hhead, hid4, leToNat_u32 hid,
      (show ¬((1 : Nat) = 0) by decide), eq_self_iff_true, if_true, ite_true,
      ite_false, if_false]
  | setMetadata m =>
    simp only [controlBody] at hb
    by_cases hif : m.length < 2 ^ 32
    case neg => rw [if_neg hif] at hb; exact absurd hb (by simp)
    rw [if_pos hif] at hb
    have hbody : body = 2 :: (u32_to_le_bytes id ++ (u32_to_le_bytes m.length ++
        m)) := (Option.some.inj hb).symm
    have hL : body.length = 9 + m.length := by
      rw [hbody]
      simp
      try omega
    have hhead : body.headD 0 = 2 := by rw [hbody]; rfl
    have hs1 : readString4 body 5 = .ok (m, 9 + m.length) := by
      rw [readString4_at (2 :: u32_to_le_bytes id) []
        (by simp) (by rw [hbody]; simp) hif hu]
      try norm_num
    have hid4 : (body.drop 1).take 4 = u32_to_le_bytes id := by
      rw [hbody]
      simp only [List.drop_succ_cons, List.drop_zero]
      exact take_append_len _ (length_u32 id)
    have c1 : ¬(body.length = 0) := by rw [hL]; omega
    have c2 : ¬(body.length < 1 + 4) := by rw [hL]; omega
    simp only [tryFromPlain, c1, c2, hhead, hs1, hid4, leToNat_u32 hid,
      (show ¬((2 : Nat) = 0) by decide), (show ¬((2 : Nat) = 1) by decide),
      eq_self_iff_true, if_true, ite_true, ite_false, if_false]

/-- Claim C1 (amended) — frame round-trip.  Amendment: for control records
the round-trip additionally requires the control payload to be shorter than
`2 ^ 32` bytes (`ctrlPayloadSmall`); with string fields so large that the
payload reaches `2 ^ 32` bytes the 2-bit size-length mask truncates and the
frame no longer decodes to the original record
(see `frame_roundtrip_counterexample`).  Within that bound, for every
Control record (any target id, any valid-UTF-8 string fields) and every
Data record with nonzero id and payload size in {0, 1, 255, 65536}:
decoding the frame produced by `Record::encode` with the reader's
frame-field decoding and converting the resulting `PlainRecord` back yields
the original record. -/
theorem frame_roundtrip_amended (r : Record) (f : List Nat)
    (hts : r.timestamp < 2 ^ 64) (hid : r.id < 2 ^ 32)
    (hscope : match r.info with
      | .data d => r.id ≠ 0 ∧
          (d.length = 0 ∨ d.length = 1 ∨ d.length = 255 ∨ d.length = 65536)
      | .control c => ctrlUtf8 c ∧ ctrlPayloadSmall c)
    (henc : encodeRecord r = some f) :
    ∃ p, decodeFrame f = some (p, []) ∧ tryFromPlain p = .ok r := by
  obtain ⟨rid, rts, rinfo⟩ := r
  cases rinfo with
  | data d =>
    obtain ⟨hid0, hdsz⟩ := hscope
    have hlen : d.length < 2 ^ 32 := by
      rcases hdsz with h | h | h | h <;> rw [h] <;> norm_num
    have hdec := decode_encode (r := ⟨rid, rts, .data d⟩) hts hid rfl hlen henc
    refine ⟨_, hdec, ?_⟩
    have h := tryFromPlain_data (p := ⟨rid, rts, d⟩) hid0
    simpa [frameIdValue] using h
  | control c =>
    obtain ⟨hu, hsmall⟩ := hscope
    have henc' := henc
    simp only [encodeRecord] at henc'
    cases hcb : controlBody c rid with
    | none => rw [hcb] at henc'; simp at henc'
    | some body =>
      have hbl : body.length < 2 ^ 32 := by
        cases c with
        | start n t m =>
          simp only [controlBody] at hcb
          by_cases hif : n.length < 2 ^ 32 ∧ t.length < 2 ^ 32 ∧
              m.length < 2 ^ 32
          · rw [if_pos hif] at hcb
            rw [(Option.some.inj hcb).symm]
            simp only [ctrlPayloadSmall] at hsmall
            simp
            try omega
          · rw [if_neg hif] at hcb; exact absurd hcb (by simp)
        | finish =>
          simp only [controlBody] at hcb
          rw [(Option.some.inj hcb).symm]
          simp
          try norm_num
        | setMetadata m =>
          simp only [controlBody] at hcb
          by_cases hif : m.length < 2 ^ 32
          · rw [if_pos hif] at hcb
            rw [(Option.some.inj hcb).symm]
            simp only [ctrlPayloadSmall] at hsmall
            simp
            try omega
          · rw [if_neg hif] at hcb; exact absurd hcb (by simp)
      have hdec := decode_encode (r := ⟨rid, rts, .control c⟩) hts hid
        (by simpa [framePayload] using hcb) hbl henc
      refine ⟨_, hdec, ?_⟩
      have h := @tryFromPlain_controlBody _ _ rts _ hid hcb hu
      simpa [frameIdValue] using h

/-- Witness for C1 (amended), at a data record with id 1, timestamp 0,
empty payload. -/
theorem frame_roundtrip_amended_witness :
    ∃ p, decodeFrame [0, 1, 0, 0] = some (p, []) ∧
      tryFromPlain p = .ok ⟨1, 0, .data []⟩ :=
  frame_roundtrip_amended ⟨1, 0, .data []⟩ [0, 1, 0, 0] (by norm_num)
    (by norm_num) ⟨by decide, Or.inl rfl⟩ (by decide)

/-- The writer-to-reader pipeline for one record: encode, decode the frame
fields, interpret the raw frame. -/
def roundTrip (r : Record) : Option (Except DecodeError Record) :=
  (encodeRecord r).bind fun f => (decodeFrame f).map fun pr => tryFromPlain pr.1

/-- The record of the counterexample to C1 as stated: a Start control record
whose name is so long that the control payload is exactly `2 ^ 32` bytes. -/
def c1r : Record :=
  ⟨1, 0, .control (.start (List.replicate (2 ^ 32 - 17) 97) [] [])⟩

theorem readExact_zero (l : List Nat) : readExact 0 l = some ([], l) := by
  simp [readExact]

/-- For any Start record with a `2 ^ 32 - 17`-byte name and empty type and
metadata, the encoded control payload is exactly `2 ^ 32` bytes, the size
field is 5 bytes whose length is masked to 1 in the control byte, and the
reader misparses the frame: the round trip produces `notEnoughData` instead
of the original record. -/
theorem roundTrip_big_start {n : List Nat} (hn : n.length = 2 ^ 32 - 17) :
    roundTrip ⟨1, 0, .control (.start n [] [])⟩ =
      some (.error .notEnoughData) := by
  have h17 : (17 : Nat) ≤ 2 ^ 32 := by norm_num
  have hn32 : n.length < 2 ^ 32 := by rw [hn]; omega
  have hcb : controlBody (.start n [] []) 1 = some (0 :: (u32_to_le_bytes 1 ++
      (u32_to_le_bytes n.length ++ (n ++ (u32_to_le_bytes 0 ++ ([] ++
        (u32_to_le_bytes 0 ++ ([] : List Nat)))))))) := by
    simp only [controlBody, List.length_nil]
    rw [if_pos ⟨hn32, by norm_num, by norm_num⟩]
  have hbl : (0 :: (u32_to_le_bytes 1 ++ (u32_to_le_bytes n.length ++ (n ++
      (u32_to_le_bytes 0 ++ ([] ++ (u32_to_le_bytes 0 ++ ([] : List Nat)))))))
        : List Nat).length = 2 ^ 32 := by
    simp
    omega
  have he0 : encode_int 0 = [0] := by decide
  have hl0 : (encode_int 0).length = 1 := by decide
  have he5 : encode_int (2 ^ 32) = [0, 0, 0, 0, 1] := by
    norm_num [encode_int, MAX_ONE_BYTE, MAX_TWO_BYTES, MAX_THREE_BYTES,
      MAX_FOUR_BYTES, MAX_FIVE_BYTES, MAX_SIX_BYTES, MAX_SEVEN_BYTES,
      u64_to_le_bytes, natToLE]
  have hl5 : (encode_int (2 ^ 32 : Nat)).length = 5 := by rw [he5]; rfl
  rw [roundTrip]
  simp only [encodeRecord, hcb, Option.map_some', hbl, he5, hl5, he0, hl0,
    Option.some_bind]
  norm_num
  simp only [decodeFrame,
    (show (0 : Nat) % 4 + 1 = 1 from rfl),
    (show (0 : Nat) / 4 % 4 + 1 = 1 from rfl),
    (show (0 : Nat) / 16 % 8 + 1 = 1 from rfl),
    List.cons_append, read_variable_int_zero_byte, readExact_zero,
    Nat.zero_mod, Option.some_bind, Option.map_some']
  simp [tryFromPlain]

/-- Counterexample to C1 as stated: for the Start record `c1r` (name of
`2 ^ 32 - 17` bytes, so a `2 ^ 32`-byte control payload) the round trip does
not return the original record — the reader reads a size of 0 and
interpretation fails with `notEnoughData`. -/
theorem frame_roundtrip_counterexample :
    roundTrip c1r = some (.error .notEnoughData) ∧
    roundTrip c1r ≠ some (.ok c1r) := by
  have h : roundTrip c1r = some (.error .notEnoughData) :=
    roundTrip_big_start (n := List.replicate (2 ^ 32 - 17) 97)
      (List.length_replicate _ _)
  refine ⟨h, ?_⟩
  rw [h]
  simp

/-! ### Streaming the reader to exhaustion (claim C6) -/

theorem readExact_rest_le {n : Nat} {bs : List Nat} {vr : List Nat × List Nat}
    (h : readExact n bs = some vr) : vr.2.length ≤ bs.length := by
  rw [readExact] at h
  split at h
  · obtain rfl := Option.some.inj h
    simp
  · simp at h

theorem read_variable_int_rest_le {n : Nat} {bs : List Nat} {er : Nat × List Nat}
    (h : read_variable_int n bs = some er) : er.2.length ≤ bs.length := by
  rw [read_variable_int] at h
  cases he : readExact n bs with
  | none => rw [he] at h; simp at h
  | some vr =>
    rw [he, Option.map_some'] at h
    obtain rfl := Option.some.inj h
    exact readExact_rest_le he

theorem decodeFrame_consumes {bs : List Nat} {pr : PlainRecord × List Nat}
    (h : decodeFrame bs = some pr) : pr.2.length < bs.length := by
  cases bs with
  | nil => simp [decodeFrame] at h
  | cons b rest =>
    simp only [decodeFrame, Option.bind_eq_some, Option.map_eq_some'] at h
    obtain ⟨er, h1, sr, h2, tr, h3, dr, h4, h5⟩ := h
    have e1 := read_variable_int_rest_le h1
    have e2 := read_variable_int_rest_le h2
    have e3 := read_variable_int_rest_le h3
    have e4 := readExact_rest_le h4
    have h6 : pr.2 = dr.2 := (congrArg Prod.snd h5).symm
    rw [h6]
    simp only [List.length_cons]
    omega

/-- Iterating the reader (`Iterator::next` in a loop): collect parsed frames
until a pull fails; the failure ends the sequence and surfaces no error. -/
def readAll (bs : List Nat) : List PlainRecord :=
  match h : decodeFrame bs with
  | none => []
  | some pr => pr.1 :: readAll pr.2
termination_by bs.length
decreasing_by exact decodeFrame_consumes h

theorem readAll_none {bs : List Nat} (h : decodeFrame bs = none) :
    readAll bs = [] := by
  rw [readAll]
  split
  · rfl
  · next pr hpr => rw [h] at hpr; exact absurd hpr (by simp)

theorem readAll_cons {bs : List Nat} {p : PlainRecord} {rest : List Nat}
    (h : decodeFrame bs = some (p, rest)) :
    readAll bs = p :: readAll rest := by
  rw [readAll]
  split
  · next hn => rw [h] at hn; exact absurd hn (by simp)
  · next pr hpr =>
    rw [h] at hpr
    obtain rfl := Option.some.inj hpr
    rfl

theorem take_append_le {l₁ : List Nat} (l₂ : List Nat) {n : Nat}
    (h : n ≤ l₁.length) : (l₁ ++ l₂).take n = l₁.take n :=
  List.take_append_of_le_length h

theorem drop_append_le {l₁ : List Nat} (l₂ : List Nat) {n : Nat}
    (h : n ≤ l₁.length) : (l₁ ++ l₂).drop n = l₁.drop n ++ l₂ :=
  List.drop_append_of_le_length h

theorem readExact_extend {n : Nat} {bs : List Nat} {vr : List Nat × List Nat}
    (X : List Nat) (h : readExact n bs = some vr) :
    readExact n (bs ++ X) = some (vr.1, vr.2 ++ X) := by
  rw [readExact] at h
  split at h
  · next hn =>
    obtain rfl := Option.some.inj h
    rw [readExact, if_pos (by simp; omega), take_append_le _ hn,
      drop_append_le _ hn]
  · simp at h

theorem read_variable_int_extend {n : Nat} {bs : List Nat} {er : Nat × List Nat}
    (X : List Nat) (h : read_variable_int n bs = some er) :
    read_variable_int n (bs ++ X) = some (er.1, er.2 ++ X) := by
  rw [read_variable_int] at h
  cases he : readExact n bs with
  | none => rw [he] at h; simp at h
  | some vr =>
    rw [he, Option.map_some'] at h
    obtain rfl := Option.some.inj h
    rw [read_variable_int, readExact_extend X he, Option.map_some']

/-- A fully-consumed frame parses the same way, leaving any appended bytes
untouched. -/
theorem decodeFrame_extend {f : List Nat} {p : PlainRecord} (X : List Nat)
    (h : decodeFrame f = some (p, [])) :
    decodeFrame (f ++ X) = some (p, X) := by
  cases f with
  | nil => simp [decodeFrame] at h
  | cons b rest =>
    simp only [decodeFrame, Option.bind_eq_some, Option.map_eq_some'] at h
    obtain ⟨er, h1, sr, h2, tr, h3, dr, h4, h5⟩ := h
    have hp : (⟨er.1 % 2 ^ 32, tr.1, dr.1⟩ : PlainRecord) = p :=
      congrArg Prod.fst h5
    have hr : dr.2 = ([] : List Nat) := congrArg Prod.snd h5
    simp only [List.cons_append, decodeFrame]
    rw [read_variable_int_extend X h1, Option.some_bind,
      read_variable_int_extend X h2, Option.some_bind,
      read_variable_int_extend X h3, Option.some_bind,
      readExact_extend X h4, Option.map_some', hr, hp]
    simp

theorem read_variable_int_restrict {n : Nat} {s u : List Nat} {er : Nat × List Nat}
    (h : read_variable_int n (s ++ u) = some er) :
    read_variable_int n s = none ∨
      ∃ rt, read_variable_int n s = some (er.1, rt) ∧ er.2 = rt ++ u := by
  by_cases hn : n ≤ s.length
  · right
    rw [read_variable_int, readExact, if_pos (by simp; omega),
      Option.map_some', take_append_le _ hn, drop_append_le _ hn] at h
    obtain rfl := Option.some.inj h
    exact ⟨s.drop n, by
      rw [read_variable_int, readExact, if_pos hn, Option.map_some'], rfl⟩
  · left
    simp only [read_variable_int, readExact, if_neg hn]
    rfl

theorem readExact_overrun {n : Nat} {s u : List Nat} {dr : List Nat × List Nat}
    (hu : u ≠ []) (h : readExact n (s ++ u) = some dr) (hr : dr.2 = []) :
    readExact n s = none := by
  rw [readExact] at h
  split at h
  · next hn =>
    obtain rfl := Option.some.inj h
    have hdrop : (s ++ u).drop n = [] := hr
    have hdl : ((s ++ u).drop n).length = 0 := by rw [hdrop]; rfl
    simp only [List.length_drop, List.length_append] at hdl
    have hul : 1 ≤ u.length := by
      cases u with
      | nil => exact absurd rfl hu
      | cons a u0 => simp
    rw [readExact, if_neg (by omega)]
  · simp at h

/-- Parsing a strict initial segment of a fully-consumed frame fails: some
read runs out of bytes, so the iterator yields `none`. -/
theorem decodeFrame_short {g t u : List Nat} {p : PlainRecord}
    (h : decodeFrame g = some (p, [])) (hg : g = t ++ u) (hu : u ≠ []) :
    decodeFrame t = none := by
  subst hg
  cases t with
  | nil => rfl
  | cons b t0 =>
    rw [List.cons_append] at h
    simp only [decodeFrame, Option.bind_eq_some, Option.map_eq_some'] at h
    obtain ⟨er, h1, sr, h2, tr, h3, dr, h4, h5⟩ := h
    have hr5 : dr.2 = ([] : List Nat) := congrArg Prod.snd h5
    simp only [decodeFrame]
    rcases read_variable_int_restrict h1 with hnone | ⟨r1, ht1, he1⟩
    · rw [hnone, Option.none_bind]
    · simp only [ht1, Option.some_bind]
      rw [he1] at h2
      rcases read_variable_int_restrict h2 with hnone | ⟨r2, ht2, he2⟩
      · rw [hnone, Option.none_bind]
      · simp only [ht2, Option.some_bind]
        rw [he2] at h3
        rcases read_variable_int_restrict h3 with hnone | ⟨r3, ht3, he3⟩
        · rw [hnone, Option.none_bind]
        · simp only [ht3, Option.some_bind]
          rw [he3] at h4
          rw [readExact_overrun hu h4 hr5]
          rfl

/-- A byte sequence holding exactly one frame, entirely consumed by one pull
of the reader. -/
def WellFormedFrame (f : List Nat) : Prop :=
  ∃ p, decodeFrame f = some (p, [])

/-- The standard header (magic, version 0x0100, zero-length extra header)
followed by anything is accepted, handing the rest to the frame loop. -/
theorem newRaw_std (rest : List Nat) :
    newRaw (HEADER_STRING ++ ([0, 1] ++ ([0, 0, 0, 0] ++ rest))) =
      .ok ([], rest) := by
  have r6 : readExact 6 (HEADER_STRING ++ ([0, 1] ++ ([0, 0, 0, 0] ++ rest))) =
      some (HEADER_STRING, [0, 1] ++ ([0, 0, 0, 0] ++ rest)) :=
    readExact_append_exact rfl
  have r2 : readExact 2 (([0, 1] : List Nat) ++ ([0, 0, 0, 0] ++ rest)) =
      some ([0, 1], [0, 0, 0, 0] ++ rest) := readExact_append_exact rfl
  have r4 : readExact 4 (([0, 0, 0, 0] : List Nat) ++ rest) =
      some ([0, 0, 0, 0], rest) := readExact_append_exact rfl
  have r0 : readExact (leToNat [0, 0, 0, 0]) rest = some ([], rest) := by
    rw [show leToNat [0, 0, 0, 0] = 0 from rfl]
    exact readExact_zero rest
  have hv : leToNat [0, 1] = HEADER_VERSION := rfl
  simp only [newRaw, r6, r2, r4, r0, hv, ne_eq, eq_self_iff_true,
    not_true_eq_false, ite_false, if_false]

/-- Claim C6 (truncation leniency).  A byte source made of a valid header,
any number of well-formed frames, and a strict prefix of a further
well-formed frame (the empty prefix included) is accepted by `new_raw`, and
iterating the reader yields exactly the well-formed frames, then stops —
the truncated tail surfaces as end-of-stream, not as an error. -/
theorem truncation_leniency (fs : List (List Nat)) (g t : List Nat)
    (hf : ∀ f ∈ fs, WellFormedFrame f) (hg : WellFormedFrame g)
    (hpre : ∃ u, g = t ++ u ∧ u ≠ []) :
    newRaw (HEADER_STRING ++ ([0, 1] ++ ([0, 0, 0, 0] ++ (fs.flatten ++ t)))) =
      .ok ([], fs.flatten ++ t) ∧
    readAll (fs.flatten ++ t) =
      fs.filterMap fun f => (decodeFrame f).map Prod.fst := by
  refine ⟨newRaw_std _, ?_⟩
  induction fs with
  | nil =>
    simp only [List.flatten_nil, List.nil_append, List.filterMap_nil]
    obtain ⟨u, hgu, hu⟩ := hpre
    obtain ⟨p, hp⟩ := hg
    exact readAll_none (decodeFrame_short hp hgu hu)
  | cons f fs ih =>
    obtain ⟨p, hp⟩ := hf f (by simp)
    have hext : decodeFrame (f ++ (fs.flatten ++ t)) = some (p, fs.flatten ++ t) :=
      decodeFrame_extend _ hp
    simp only [List.flatten_cons, List.append_assoc]
    rw [readAll_cons hext, ih (fun f' hf' => hf f' (by simp [hf']))]
    simp [List.filterMap_cons, hp]

/-- Witness for C6: two whole one-byte-payload-free frames followed by the
first 2 bytes of a third (a 4-byte frame with its last 2 bytes removed)
yield exactly 2 records. -/
theorem truncation_leniency_witness :
    newRaw (HEADER_STRING ++ ([0, 1] ++ ([0, 0, 0, 0] ++
        (([[0, 1, 0, 0], [0, 1, 0, 0]] : List (List Nat)).flatten ++ [0, 1])))) =
      .ok ([], ([[0, 1, 0, 0], [0, 1, 0, 0]] : List (List Nat)).flatten ++ [0, 1]) ∧
    readAll (([[0, 1, 0, 0], [0, 1, 0, 0]] : List (List Nat)).flatten ++ [0, 1]) =
      ([[0, 1, 0, 0], [0, 1, 0, 0]] : List (List Nat)).filterMap
        fun f => (decodeFrame f).map Prod.fst :=
  truncation_leniency [[0, 1, 0, 0], [0, 1, 0, 0]] [0, 1, 0, 0] [0, 1]
    (by
      intro f hf
      rcases List.mem_cons.mp hf with rfl | hf2
      · exact ⟨⟨1, 0, []⟩, by decide⟩
      rcases List.mem_cons.mp hf2 with rfl | hf3
      · exact ⟨⟨1, 0, []⟩, by decide⟩
      exact absurd hf3 (by simp))
    ⟨⟨1, 0, []⟩, by decide⟩
    ⟨[0, 0], by decide, by decide⟩

/-! ### Interpreting raw frames (claim C7) -/

/-- The 4-byte little-endian length announced by the string region at
offset `q` of a control payload. -/
def strLen (d : List Nat) (q : Nat) : Nat := leToNat ((d.drop q).take 4)

/-- The bytes of the string region at offset `q`. -/
def strBytes (d : List Nat) (q : Nat) : List Nat :=
  (d.drop (q + 4)).take (strLen d q)

/-- The offset just past the string region at offset `q`. -/
def strEnd (d : List Nat) (q : Nat) : Nat := q + 4 + strLen d q

/-- The string region at offset `q` lies inside the payload. -/
def strFits (d : List Nat) (q : Nat) : Prop :=
  q + 4 ≤ d.length ∧ strEnd d q ≤ d.length

theorem readString4_ok_iff {d : List Nat} {q : Nat} {s : List Nat} {q' : Nat} :
    readString4 d q = .ok (s, q') ↔
      strFits d q ∧ validUtf8 (strBytes d q) = true ∧ s = strBytes d q ∧
        q' = strEnd d q := by
  constructor
  · intro h
    rw [readString4] at h
    split at h
    · exact absurd h (by simp)
    · next h1 =>
      split at h
      · exact absurd h (by simp)
      · next h2 =>
        split at h
        · next hvu =>
          obtain ⟨hs, hq⟩ := Prod.mk.injEq .. |>.mp (Except.ok.inj h)
          exact ⟨⟨by omega, by simp only [strEnd, strLen]; omega⟩,
            hvu, hs.symm, hq.symm⟩
        · exact absurd h (by simp)
  · rintro ⟨⟨hf1, hf2⟩, hv, rfl, rfl⟩
    simp only [strEnd, strLen] at hf2 ⊢
    rw [readString4, if_neg (by omega), if_neg (by omega)]
    rw [if_pos]
    · rfl
    · exact hv

theorem readString4_error_cases {d : List Nat} {q : Nat} {e : DecodeError}
    (h : readString4 d q = .error e) :
    e = .notEnoughData ∨ e = .invalidUtf8 := by
  rw [readString4] at h
  split at h
  · exact Or.inl (Except.error.inj h).symm
  · split at h
    · exact Or.inl (Except.error.inj h).symm
    · split at h
      · exact absurd h (by simp)
      · exact Or.inr (Except.error.inj h).symm

theorem tryFromPlain_zero_short {ts : Nat} {d : List Nat} (h : d.length < 5) :
    tryFromPlain ⟨0, ts, d⟩ = .error .notEnoughData := by
  simp only [tryFromPlain]
  rw [if_pos trivial]
  by_cases h0 : d.length = 0
  · rw [if_pos h0]
  · rw [if_neg h0, if_pos (by omega)]

theorem tryFromPlain_zero_badTag {ts : Nat} {d : List Nat} (h5 : 5 ≤ d.length)
    (h0 : d.headD 0 ≠ 0) (h1 : d.headD 0 ≠ 1) (h2 : d.headD 0 ≠ 2) :
    tryFromPlain ⟨0, ts, d⟩ = .error (.malformedControl (d.headD 0)) := by
  simp only [tryFromPlain]
  rw [if_pos trivial, if_neg (by omega), if_neg (by omega), if_neg h0,
    if_neg h1, if_neg h2]

theorem tryFromPlain_zero_finish {ts : Nat} {d : List Nat} (h5 : 5 ≤ d.length)
    (hh : d.headD 0 = 1) :
    tryFromPlain ⟨0, ts, d⟩ =
      .ok ⟨leToNat ((d.drop 1).take 4), ts, .control .finish⟩ := by
  simp only [tryFromPlain]
  rw [if_pos trivial, if_neg (by omega), if_neg (by omega),
    if_neg (by rw [hh]; decide), if_pos hh]

theorem tryFromPlain_zero_setMeta {ts : Nat} {d : List Nat} (h5 : 5 ≤ d.length)
    (hh : d.headD 0 = 2) :
    tryFromPlain ⟨0, ts, d⟩ = (match readString4 d 5 with
      | .error e => .error e
      | .ok (metadata, _) => .ok ⟨leToNat ((d.drop 1).take 4), ts,
          .control (.setMetadata metadata)⟩) := by
  simp only [tryFromPlain]
  rw [if_pos trivial, if_neg (by omega), if_neg (by omega),
    if_neg (by rw [hh]; decide), if_neg (by rw [hh]; decide), if_pos hh]

theorem tryFromPlain_zero_start {ts : Nat} {d : List Nat} (h5 : 5 ≤ d.length)
    (hh : d.headD 0 = 0) :
    tryFromPlain ⟨0, ts, d⟩ = (match readString4 d 5 with
      | .error e => .error e
      | .ok (name, p1) =>
        match readString4 d p1 with
        | .error e => .error e
        | .ok (ty, p2) =>
          match readString4 d p2 with
          | .error e => .error e
          | .ok (metadata, _) => .ok ⟨leToNat ((d.drop 1).take 4), ts,
              .control (.start name ty metadata)⟩) := by
  simp only [tryFromPlain]
  rw [if_pos trivial, if_neg (by omega), if_neg (by omega), if_pos hh]

/-- Claim C7 (amended) — raw-frame interpretation.  Amendment: truncation of
the 5-byte tag + target-id header takes precedence over the unknown-tag
check, so `MalformedControl` occurs exactly when the payload holds at least
5 bytes AND the tag byte is not in {0, 1, 2}
(see `interpret_counterexample`).  In full: a nonzero id passes through as a
Data record with the payload unchanged; with id 0, fewer than 5 payload
bytes give `notEnoughData`; with at least 5 bytes an unknown tag gives
`malformedControl` (and conversely); tag 1 yields Finish with the 4-byte
little-endian target id; for tags 0 and 2 the only outcomes are success, a
truncation error or `invalidUtf8`, and conversion succeeds exactly when
each length-prefixed string region fits inside the payload and holds valid
UTF-8, yielding those exact byte regions. -/
theorem interpret_amended (p : PlainRecord) :
    (p.id ≠ 0 → tryFromPlain p = .ok ⟨p.id, p.timestamp, .data p.data⟩) ∧
    (p.id = 0 → p.data.length < 5 → tryFromPlain p = .error .notEnoughData) ∧
    (p.id = 0 → 5 ≤ p.data.length → p.data.headD 0 ≠ 0 → p.data.headD 0 ≠ 1 →
      p.data.headD 0 ≠ 2 →
      tryFromPlain p = .error (.malformedControl (p.data.headD 0))) ∧
    (∀ tag, tryFromPlain p = .error (.malformedControl tag) →
      p.id = 0 ∧ 5 ≤ p.data.length ∧ tag = p.data.headD 0 ∧ tag ≠ 0 ∧
        tag ≠ 1 ∧ tag ≠ 2) ∧
    (p.id = 0 → 5 ≤ p.data.length → p.data.headD 0 = 1 →
      tryFromPlain p = .ok ⟨leToNat ((p.data.drop 1).take 4), p.timestamp,
        .control .finish⟩) ∧
    (p.id = 0 → 5 ≤ p.data.length →
      (p.data.headD 0 = 0 ∨ p.data.headD 0 = 2) →
      (∃ r, tryFromPlain p = .ok r) ∨ tryFromPlain p = .error .notEnoughData ∨
        tryFromPlain p = .error .invalidUtf8) ∧
    (p.id = 0 → 5 ≤ p.data.length → p.data.headD 0 = 2 → ∀ r : Record,
      (tryFromPlain p = .ok r ↔
        (strFits p.data 5 ∧ validUtf8 (strBytes p.data 5) = true ∧
          r = ⟨leToNat ((p.data.drop 1).take 4), p.timestamp,
            .control (.setMetadata (strBytes p.data 5))⟩))) ∧
    (p.id = 0 → 5 ≤ p.data.length → p.data.headD 0 = 0 → ∀ r : Record,
      (tryFromPlain p = .ok r ↔
        (strFits p.data 5 ∧ validUtf8 (strBytes p.data 5) = true ∧
          strFits p.data (strEnd p.data 5) ∧
          validUtf8 (strBytes p.data (strEnd p.data 5)) = true ∧
          strFits p.data (strEnd p.data (strEnd p.data 5)) ∧
          validUtf8 (strBytes p.data (strEnd p.data (strEnd p.data 5))) = true ∧
          r = ⟨leToNat ((p.data.drop 1).take 4), p.timestamp,
            .control (.start (strBytes p.data 5)
              (strBytes p.data (strEnd p.data 5))
              (strBytes p.data (strEnd p.data (strEnd p.data 5))))⟩))) := by
  obtain ⟨pid, pts, pd⟩ := p
  by_cases hpid : pid = 0
  case neg =>
    refine ⟨fun _ => tryFromPlain_data hpid, fun h => absurd h hpid,
      fun h => absurd h hpid, ?_, fun h => absurd h hpid,
      fun h => absurd h hpid, fun h => absurd h hpid, fun h => absurd h hpid⟩
    intro tag htag
    rw [tryFromPlain_data hpid] at htag
    exact absurd htag (by simp)
  case pos =>
    subst hpid
    refine ⟨fun h => absurd rfl h, fun _ h => tryFromPlain_zero_short h,
      fun _ h5 h0 h1 h2 => tryFromPlain_zero_badTag h5 h0 h1 h2,
      ?_, fun _ h5 hh => tryFromPlain_zero_finish h5 hh, ?_, ?_, ?_⟩
    · intro tag htag
      by_cases h5 : pd.length < 5
      · rw [tryFromPlain_zero_short h5] at htag
        exact absurd htag (by simp)
      have h5' : 5 ≤ pd.length := by omega
      by_cases hh0 : pd.headD 0 = 0
      · exfalso
        rw [tryFromPlain_zero_start h5' hh0] at htag
        cases hr1 : readString4 pd 5 with
        | error e =>
          simp only [hr1] at htag
          rcases readString4_error_cases hr1 with rfl | rfl <;> simp at htag
        | ok nr =>
          obtain ⟨n1, q1⟩ := nr
          simp only [hr1] at htag
          cases hr2 : readString4 pd q1 with
          | error e =>
            simp only [hr2] at htag
            rcases readString4_error_cases hr2 with rfl | rfl <;> simp at htag
          | ok tr =>
            obtain ⟨t1, q2⟩ := tr
            simp only [hr2] at htag
            cases hr3 : readString4 pd q2 with
            | error e =>
              simp only [hr3] at htag
              rcases readString4_error_cases hr3 with rfl | rfl <;> simp at htag
            | ok mr =>
              obtain ⟨m1, q3⟩ := mr
              simp only [hr3] at htag
              simp at htag
      by_cases hh1 : pd.headD 0 = 1
      · rw [tryFromPlain_zero_finish h5' hh1] at htag
        exact absurd htag (by simp)
      by_cases hh2 : pd.headD 0 = 2
      · exfalso
        rw [tryFromPlain_zero_setMeta h5' hh2] at htag
        cases hr1 : readString4 pd 5 with
        | error e =>
          simp only [hr1] at htag
          rcases readString4_error_cases hr1 with rfl | rfl <;> simp at htag
        | ok mr =>
          obtain ⟨m1, q1⟩ := mr
          simp only [hr1] at htag
          simp at htag
      · rw [tryFromPlain_zero_badTag h5' hh0 hh1 hh2] at htag
        have he := DecodeError.malformedControl.inj (Except.error.inj htag)
        rw [he] at hh0 hh1 hh2
        exact ⟨rfl, h5', he.symm, hh0, hh1, hh2⟩
    · intro _ h5 htag
      rcases htag with hh | hh
      · rw [tryFromPlain_zero_start h5 hh]
        cases hr1 : readString4 pd 5 with
        | error e =>
          rcases readString4_error_cases hr1 with rfl | rfl
          · right; left; simp [hr1]
          · right; right; simp [hr1]
        | ok nr =>
          obtain ⟨n1, q1⟩ := nr
          cases hr2 : readString4 pd q1 with
          | error e =>
            rcases readString4_error_cases hr2 with rfl | rfl
            · right; left; simp [hr1, hr2]
            · right; right; simp [hr1, hr2]
          | ok tr =>
            obtain ⟨t1, q2⟩ := tr
            cases hr3 : readString4 pd q2 with
            | error e =>
              rcases readString4_error_cases hr3 with rfl | rfl
              · right; left; simp [hr1, hr2, hr3]
              · right; right; simp [hr1, hr2, hr3]
            | ok mr =>
              obtain ⟨m1, q3⟩ := mr
              left
              exact ⟨⟨leToNat ((pd.drop 1).take 4), pts,
                .control (.start n1 t1 m1)⟩, by simp [hr1, hr2, hr3]⟩
      · rw [tryFromPlain_zero_setMeta h5 hh]
        cases hr1 : readString4 pd 5 with
        | error e =>
          rcases readString4_error_cases hr1 with rfl | rfl
          · right; left; simp [hr1]
          · right; right; simp [hr1]
        | ok mr =>
          obtain ⟨m1, q1⟩ := mr
          left
          exact ⟨⟨leToNat ((pd.drop 1).take 4), pts,
            .control (.setMetadata m1)⟩, by simp [hr1]⟩
    · intro _ h5 hh r
      rw [tryFromPlain_zero_setMeta h5 hh]
      constructor
      · intro h
        cases hr1 : readString4 pd 5 with
        | error e => simp only [hr1] at h; exact absurd h (by simp)
        | ok mr =>
          obtain ⟨m1, q1⟩ := mr
          simp only [hr1] at h
          obtain ⟨hf, hv, hm, hq⟩ := readString4_ok_iff.mp hr1
          subst hm
          exact ⟨hf, hv, (Except.ok.inj h).symm⟩
      · rintro ⟨hf, hv, rfl⟩
        have hr1 : readString4 pd 5 = .ok (strBytes pd 5, strEnd pd 5) :=
          readString4_ok_iff.mpr ⟨hf, hv, rfl, rfl⟩
        simp only [hr1]
    · intro _ h5 hh r
      rw [tryFromPlain_zero_start h5 hh]
      constructor
      · intro h
        cases hr1 : readString4 pd 5 with
        | error e => simp only [hr1] at h; exact absurd h (by simp)
        | ok nr =>
          obtain ⟨n1, q1⟩ := nr
          simp only [hr1] at h
          obtain ⟨hf1, hv1, hn1, hq1⟩ := readString4_ok_iff.mp hr1
          subst hn1
          subst hq1
          cases hr2 : readString4 pd (strEnd pd 5) with
          | error e => simp only [hr2] at h; exact absurd h (by simp)
          | ok tr =>
            obtain ⟨t1, q2⟩ := tr
            simp only [hr2] at h
            obtain ⟨hf2, hv2, ht1, hq2⟩ := readString4_ok_iff.mp hr2
            subst ht1
            subst hq2
            cases hr3 : readString4 pd (strEnd pd (strEnd pd 5)) with
            | error e => simp only [hr3] at h; exact absurd h (by simp)
            | ok mr =>
              obtain ⟨m1, q3⟩ := mr
              simp only [hr3] at h
              obtain ⟨hf3, hv3, hm1, hq3⟩ := readString4_ok_iff.mp hr3
              subst hm1
              exact ⟨hf1, hv1, hf2, hv2, hf3, hv3, (Except.ok.inj h).symm⟩
      · rintro ⟨hf1, hv1, hf2, hv2, hf3, hv3, rfl⟩
        have hr1 : readString4 pd 5 = .ok (strBytes pd 5, strEnd pd 5) :=
          readString4_ok_iff.mpr ⟨hf1, hv1, rfl, rfl⟩
        have hr2 : readString4 pd (strEnd pd 5) =
            .ok (strBytes pd (strEnd pd 5), strEnd pd (strEnd pd 5)) :=
          readString4_ok_iff.mpr ⟨hf2, hv2, rfl, rfl⟩
        have hr3 : readString4 pd (strEnd pd (strEnd pd 5)) =
            .ok (strBytes pd (strEnd pd (strEnd pd 5)),
              strEnd pd (strEnd pd (strEnd pd 5))) :=
          readString4_ok_iff.mpr ⟨hf3, hv3, rfl, rfl⟩
        simp only [hr1, hr2, hr3]

/-- Witness for C7 (amended): a nonzero-id frame passes through as Data. -/
theorem interpret_amended_witness :
    tryFromPlain ⟨5, 7, [1, 2]⟩ = .ok ⟨5, 7, .data [1, 2]⟩ :=
  (interpret_amended ⟨5, 7, [1, 2]⟩).1 (by decide)

/-- Counterexample to C7 as stated: the 1-byte payload `[3]` has an unknown
tag byte, yet interpretation fails with the truncation error ("Not enough
data for entry id"), not with `MalformedControl` — the claim's "exactly
when" direction fails. -/
theorem interpret_counterexample :
    tryFromPlain ⟨0, 0, [3]⟩ = .error .notEnoughData ∧
    ([3] : List Nat).headD 0 = 3 ∧ (3 : Nat) ≠ 0 ∧ (3 : Nat) ≠ 1 ∧
    (3 : Nat) ≠ 2 ∧
    tryFromPlain ⟨0, 0, [3]⟩ ≠ .error (.malformedControl 3) := by
  have h : tryFromPlain ⟨0, 0, [3]⟩ = .error .notEnoughData := by rfl
  exact ⟨h, rfl, by decide, by decide, by decide, by rw [h]; simp⟩

/-! ### The writer pipeline (`src/writer.rs` lines 52-134, claim C8) -/

/-- The producer-visible state of a `WPILOGWriter`: the `AtomicU32` id
counter and the FIFO of already-encoded frames sent on the channel to the
background worker thread. -/
structure WriterState where
  nextId : Nat
  queue : List (List Nat)
  deriving DecidableEq, Repr

/-- The state right after `WPILOGWriter::new`: `AtomicU32::new(1)`, nothing
sent yet. -/
def initWriter : WriterState := ⟨1, []⟩

/-- `WPILOGWriter::make_entry`: `self.id.fetch_add(1, Ordering::Relaxed)`
returns the old counter value and stores the incremented one — a `u32`
operation, so the stored value wraps modulo `2 ^ 32`; the Start control
record carrying the old value is encoded and sent on the channel, and the
old value is the returned handle's id.  `none` models the encode panic on
oversized strings. -/
def makeEntry (s : WriterState) (t : Nat) (name ty metadata : List Nat) :
    Option (WriterState × Nat) :=
  match encodeRecord ⟨s.nextId, t, .control (.start name ty metadata)⟩ with
  | some frame =>
    some (⟨(s.nextId + 1) % 2 ^ 32, s.queue ++ [frame]⟩, s.nextId)
  | none => none

/-- A sequence of `make_entry` calls on one writer, each argument a
(timestamp, name, type, metadata) tuple, collecting the allocated ids in
call order. -/
def runCalls (s : WriterState) :
    List (Nat × List Nat × List Nat × List Nat) →
      Option (WriterState × List Nat)
  | [] => some (s, [])
  | a :: rest =>
    match makeEntry s a.1 a.2.1 a.2.2.1 a.2.2.2 with
    | none => none
    | some si => (runCalls si.1 rest).map fun sr => (sr.1, si.2 :: sr.2)

theorem runCalls_ids (args : List (Nat × List Nat × List Nat × List Nat))
    (s s' : WriterState) (ids : List Nat)
    (hbound : s.nextId + args.length ≤ 2 ^ 32)
    (hrun : runCalls s args = some (s', ids)) :
    ids = List.range' s.nextId args.length := by
  induction args generalizing s s' ids with
  | nil =>
    simp only [runCalls, Option.some.injEq, Prod.mk.injEq] at hrun
    rw [← hrun.2]
    rfl
  | cons a rest ih =>
    simp only [runCalls] at hrun
    cases hm : makeEntry s a.1 a.2.1 a.2.2.1 a.2.2.2 with
    | none => simp only [hm] at hrun; exact absurd hrun (by simp)
    | some si =>
      obtain ⟨s1, id1⟩ := si
      simp only [hm] at hrun
      cases hr : runCalls s1 rest with
      | none => simp only [hr, Option.map_none'] at hrun; exact absurd hrun (by simp)
      | some sr =>
        obtain ⟨s2, ids2⟩ := sr
        simp only [hr, Option.map_some'] at hrun
        simp only [Option.some.injEq, Prod.mk.injEq] at hrun
        obtain ⟨hs', hids⟩ := hrun
        simp only [makeEntry] at hm
        cases he : encodeRecord ⟨s.nextId, a.1,
            .control (.start a.2.1 a.2.2.1 a.2.2.2)⟩ with
        | none => simp only [he] at hm; exact absurd hm (by simp)
        | some frame =>
          simp only [he, Option.some.injEq, Prod.mk.injEq] at hm
          obtain ⟨hm1, hm2⟩ := hm
          have hn1 : s1.nextId = (s.nextId + 1) % 2 ^ 32 := by rw [← hm1]
          have h32 : (2 : Nat) ^ 32 = 4294967296 := by norm_num
          simp only [List.length_cons] at hbound
          have hmle : (s.nextId + 1) % 2 ^ 32 ≤ s.nextId + 1 :=
            Nat.mod_le _ _
          have hrest : ids2 = List.range' s1.nextId rest.length := by
            refine ih s1 s2 ids2 ?_ hr
            rw [hn1]
            omega
          have hlen : List.range' s1.nextId rest.length =
              List.range' (s.nextId + 1) rest.length := by
            cases hrl : rest.length with
            | zero => rfl
            | succ k =>
              rw [hn1, Nat.mod_eq_of_lt (by omega)]
          rw [← hids, List.length_cons, List.range'_succ, hrest, hlen, ← hm2]

/-- Claim C8 (amended): before the 32-bit counter wraps — fewer than
`2 ^ 32` allocations — `make_entry` hands out ids `1, 2, ..., N` in call
order: the i-th successful call receives id i, so any N calls yield N
distinct, strictly increasing ids; and every call enqueues the encoded
Start control record carrying exactly its freshly allocated id.  At the
`2 ^ 32`-th call the `u32` `fetch_add` wraps and ids restart at 0 (see the
counterexample). -/
theorem entry_id_allocation_amended :
    (∀ (args : List (Nat × List Nat × List Nat × List Nat))
        (s' : WriterState) (ids : List Nat),
      args.length < 2 ^ 32 →
      runCalls initWriter args = some (s', ids) →
      ids = List.range' 1 args.length ∧ ids.Pairwise (· < ·)) ∧
    (∀ (s : WriterState) (t : Nat) (name ty metadata : List Nat)
        (s₂ : WriterState) (id : Nat),
      makeEntry s t name ty metadata = some (s₂, id) →
      id = s.nextId ∧ ∃ frame,
        encodeRecord ⟨id, t, .control (.start name ty metadata)⟩ =
          some frame ∧
        s₂.queue = s.queue ++ [frame]) := by
  constructor
  · intro args s' ids hlt hrun
    have h32 : (2 : Nat) ^ 32 = 4294967296 := by norm_num
    have h := runCalls_ids args initWriter s' ids (by
      show 1 + args.length ≤ 2 ^ 32
      omega) hrun
    refine ⟨h, ?_⟩
    rw [h]
    exact List.pairwise_lt_range' 1 args.length
  · intro s t name ty metadata s₂ id h
    simp only [makeEntry] at h
    cases he : encodeRecord ⟨s.nextId, t,
        .control (.start name ty metadata)⟩ with
    | none => simp only [he] at h; exact absurd h (by simp)
    | some frame =>
      simp only [he, Option.some.injEq, Prod.mk.injEq] at h
      obtain ⟨hs, hid⟩ := h
      subst hid
      subst hs
      exact ⟨rfl, frame, he, rfl⟩

/-- Witness for C8 (amended): a single call on a fresh writer allocates
id 1 and enqueues the Start frame. -/
theorem entry_id_allocation_amended_witness :
    ([((0 : Nat), ([] : List Nat), ([] : List Nat), ([] : List Nat))].length
        < 2 ^ 32) ∧
    ([1] : List Nat) = List.range' 1
      [((0 : Nat), ([] : List Nat), ([] : List Nat),
        ([] : List Nat))].length ∧
    ([1] : List Nat).Pairwise (· < ·) := by
  have h := entry_id_allocation_amended.1 [(0, [], [], [])]
    ⟨2, [[0, 0, 17, 0, 0, 1, 0, 0, 0, 0, 0, 0, 0, 0, 0, 0, 0, 0, 0, 0, 0]]⟩
    [1] (by norm_num) (by decide)
  exact ⟨by norm_num, h.1, h.2⟩

/-- `make_entry` with empty strings always succeeds: the concrete new
state and returned id, with the frame kept symbolic in the old counter
value. -/
theorem makeEntry_empty_eq (s : WriterState) :
    makeEntry s 0 [] [] [] =
      some (⟨(s.nextId + 1) % 2 ^ 32,
        s.queue ++ [[0, 0, 17, 0, 0] ++ (u32_to_le_bytes s.nextId ++
          [0, 0, 0, 0, 0, 0, 0, 0, 0, 0, 0, 0])]⟩, s.nextId) := rfl

/-- `k` successive `make_entry` calls with timestamp 0 and empty strings,
starting from a fresh writer. -/
def iterMake : Nat → WriterState
  | 0 => initWriter
  | k + 1 =>
    match makeEntry (iterMake k) 0 [] [] [] with
    | some si => si.1
    | none => iterMake k

theorem iterMake_nextId (k : Nat) :
    (iterMake k).nextId = (1 + k) % 2 ^ 32 := by
  induction k with
  | zero =>
    show (1 : Nat) = (1 + 0) % 2 ^ 32
    norm_num
  | succ k ih =>
    simp only [iterMake, makeEntry_empty_eq]
    rw [ih]
    have h32 : (2 : Nat) ^ 32 = 4294967296 := by norm_num
    rw [h32]
    omega

/-- Counterexample to C8 as stated: the id counter is a `u32` and
`fetch_add` wraps, so over the writer's lifetime ids are not strictly
increasing, the i-th call does not receive i, and ids are reused.  The
`2 ^ 32 - 1`-th call receives `2 ^ 32 - 1`, the next call receives 0 — a
decrease, and not the `2 ^ 32` the claim promises — and the call after
that receives 1 again, already handed out by the very first call. -/
theorem entry_id_allocation_counterexample :
    (∃ s₂, makeEntry (iterMake (2 ^ 32 - 2)) 0 [] [] [] =
        some (s₂, 2 ^ 32 - 1)) ∧
    (∃ s₂, makeEntry (iterMake (2 ^ 32 - 1)) 0 [] [] [] = some (s₂, 0)) ∧
    (0 : Nat) < 2 ^ 32 - 1 ∧ (0 : Nat) ≠ 2 ^ 32 ∧
    (∃ s₂, makeEntry (iterMake 0) 0 [] [] [] = some (s₂, 1)) ∧
    (∃ s₂, makeEntry (iterMake (2 ^ 32)) 0 [] [] [] = some (s₂, 1)) := by
  have h1 : (iterMake (2 ^ 32 - 2)).nextId = 2 ^ 32 - 1 := by
    rw [iterMake_nextId]; norm_num
  have h2 : (iterMake (2 ^ 32 - 1)).nextId = 0 := by
    rw [iterMake_nextId]; norm_num
  have h0 : (iterMake 0).nextId = 1 := by
    rw [iterMake_nextId]; norm_num
  have h3 : (iterMake (2 ^ 32)).nextId = 1 := by
    rw [iterMake_nextId]; norm_num
  have he1 := makeEntry_empty_eq (iterMake (2 ^ 32 - 2))
  have he2 := makeEntry_empty_eq (iterMake (2 ^ 32 - 1))
  have he0 := makeEntry_empty_eq (iterMake 0)
  have he3 := makeEntry_empty_eq (iterMake (2 ^ 32))
  rw [h1] at he1
  rw [h2] at he2
  rw [h0] at he0
  rw [h3] at he3
  exact ⟨⟨_, he1⟩, ⟨_, he2⟩, by norm_num, by norm_num, ⟨_, he0⟩, ⟨_, he3⟩⟩

/-! ### The i64-array typed wrapper (`src/entrytypes.rs` lines 129-150, claim C9) -/

/-- The two's-complement `u64` bit pattern of an `i64` value, i.e. the
`u64` with the same `to_le_bytes` image. -/
def u64OfI64 (v : Int) : Nat := (v % (2 ^ 64 : Int)).toNat

/-- The payload built by the `Entry<&[i64]>` impl's `update_with_timestamp`:
the destination buffer is `vec![0; data.len() * 4]` and the copy loop
stores `encoded[0]` through `encoded[3]` at offset `4 * i` — only the
first 4 of the 8 bytes of element i's `to_le_bytes`. -/
def i64ArrayPayload (data : List Int) : List Nat :=
  data.flatMap fun item => (u64_to_le_bytes (u64OfI64 item)).take 4

/-- Claim C9 is a code bug: `I64ArrayEntry::update_with_timestamp` emits
only the low 4 bytes of each 64-bit element (`dest` has `data.len() * 4`
bytes and the loop copies `encoded[0..=3]`), not the 8-byte little-endian
encoding the claim (and the `int64[]` wire format) requires.  The slice
`[0]` yields a 4-byte payload where the claim promises 8 bytes, and the
distinct element `2 ^ 32` collapses to the same payload as `0` because its
low 32 bits vanish. -/
theorem i64_array_payload_bug :
    i64ArrayPayload [0] = [0, 0, 0, 0] ∧
    (i64ArrayPayload [0]).length = 4 ∧ (0 : Int) ≠ 2 ^ 32 ∧
    i64ArrayPayload [2 ^ 32] = i64ArrayPayload [0] := by
  refine ⟨by decide, by decide, by decide, by decide⟩

end Wpilog
